import Mathlib

/-!
Verification of the StudyTracker task-manager repository.

The development shallowly embeds the two source files (the subjects-based
task manager / chat client in `part_000` and `calendar.js`) into Lean:
pure functions become Lean functions, stateful handlers become explicit
state-passing functions, and the browser's JSON/localStorage layer is
modelled by an executable JSON printer and parser over an inductive value
type (numbers restricted to integers; float literals are outside the
model, so the parser fails on them where JS would produce a float).
-/

set_option linter.unusedVariables false

namespace StudyTracker

/-! ## Decimal digit strings

JavaScript's `Number.prototype.toString` (radix 10) and `JSON.stringify`
render an integer as its plain decimal digits.  We model that rendering
by `natToChars` / `intToStr` below, and prove it invertible. -/

/-- The character for a single decimal digit. -/
def digitChar10 (n : Nat) : Char := Char.ofNat (48 + n)

/-- Digit loop with explicit fuel (`n + 1` always suffices); structural
recursion keeps concrete instances kernel-evaluable. -/
def natCharsFuel : Nat → Nat → List Char → List Char
  | 0, _, acc => acc
  | fuel + 1, n, acc =>
    if n = 0 then acc else natCharsFuel fuel (n / 10) (digitChar10 (n % 10) :: acc)

/-- Accumulator loop producing the decimal digits of `n` (most significant
first) in front of `acc`. -/
def natCharsAux (n : Nat) (acc : List Char) : List Char := natCharsFuel (n + 1) n acc

theorem natCharsFuel_irrel :
    ∀ n f₁ f₂ acc, n < f₁ → n < f₂ → natCharsFuel f₁ n acc = natCharsFuel f₂ n acc := by
  intro n
  induction n using Nat.strong_induction_on with
  | _ n ih =>
    intro f₁ f₂ acc h₁ h₂
    obtain ⟨g₁, rfl⟩ : ∃ g, f₁ = g + 1 := ⟨f₁ - 1, by omega⟩
    obtain ⟨g₂, rfl⟩ : ∃ g, f₂ = g + 1 := ⟨f₂ - 1, by omega⟩
    by_cases h : n = 0
    · simp [natCharsFuel, h]
    · have hd := Nat.div_lt_self (Nat.pos_of_ne_zero h) (show 1 < 10 by decide)
      simp only [natCharsFuel, if_neg h]
      exact ih (n / 10) hd g₁ g₂ _ (by omega) (by omega)

/-- Decimal digit list of a natural number, as JS `String(n)` renders it. -/
def natToChars (n : Nat) : List Char :=
  if n = 0 then [Char.ofNat 48] else natCharsAux n []

/-- JS `String(n)` for a natural number. -/
def natToStr (n : Nat) : String := String.mk (natToChars n)

/-- JS `String(i)` for an integer. -/
def intToStr (i : Int) : String :=
  if i < 0 then String.mk (Char.ofNat 45 :: natToChars i.natAbs) else natToStr i.toNat

/-- Value denoted by a list of decimal digit characters. -/
def digitsVal (cs : List Char) : Nat :=
  cs.foldl (fun a c => a * 10 + (c.toNat - 48)) 0

theorem digitsVal_go (a : Nat) (cs : List Char) :
    cs.foldl (fun a c => a * 10 + (c.toNat - 48)) a =
      a * 10 ^ cs.length + digitsVal cs := by
  induction cs generalizing a with
  | nil => simp [digitsVal]
  | cons c cs ih =>
    simp only [List.foldl_cons, digitsVal, List.length_cons]
    rw [ih (a * 10 + (c.toNat - 48)), ih (0 * 10 + (c.toNat - 48))]
    ring

theorem natCharsAux_eq (n : Nat) (acc : List Char) (h : n ≠ 0) :
    natCharsAux n acc = natCharsAux (n / 10) (digitChar10 (n % 10) :: acc) := by
  have hd := Nat.div_lt_self (Nat.pos_of_ne_zero h) (show 1 < 10 by decide)
  show natCharsFuel (n + 1) n acc = _
  rw [show natCharsFuel (n + 1) n acc
      = natCharsFuel n (n / 10) (digitChar10 (n % 10) :: acc) from by
    simp only [natCharsFuel, if_neg h]]
  exact natCharsFuel_irrel (n / 10) n (n / 10 + 1) _ (by omega) (by omega)

theorem natCharsAux_append (n : Nat) (acc : List Char) :
    natCharsAux n acc = natCharsAux n [] ++ acc := by
  induction n using Nat.strong_induction_on generalizing acc with
  | _ n ih =>
    by_cases h : n = 0
    · simp [natCharsAux, natCharsFuel, h]
    · rw [natCharsAux_eq n acc h, natCharsAux_eq n [] h,
        ih (n / 10) (Nat.div_lt_self (Nat.pos_of_ne_zero h) (by decide)),
        ih (n / 10) (Nat.div_lt_self (Nat.pos_of_ne_zero h) (by decide))
          (digitChar10 (n % 10) :: [])]
      simp

theorem natToChars_step (n : Nat) (h : n ≠ 0) :
    natToChars n =
      (if n / 10 = 0 then [] else natToChars (n / 10)) ++ [digitChar10 (n % 10)] := by
  rw [natToChars, if_neg h, natCharsAux_eq n [] h, natCharsAux_append]
  by_cases h10 : n / 10 = 0
  · simp [h10, natCharsAux, natCharsFuel]
  · simp [h10, natToChars]

theorem digitChar10_toNat {d : Nat} (h : d < 10) : (digitChar10 d).toNat = 48 + d := by
  interval_cases d <;> decide

theorem digitsVal_natToChars (n : Nat) : digitsVal (natToChars n) = n := by
  induction n using Nat.strong_induction_on with
  | _ n ih =>
    by_cases h : n = 0
    · subst h; decide
    · rw [natToChars_step n h]
      by_cases h10 : n / 10 = 0
      · rw [if_pos h10]
        simp only [List.nil_append, digitsVal, List.foldl_cons, List.foldl_nil]
        rw [digitChar10_toNat (show n % 10 < 10 from Nat.mod_lt n (by decide))]
        omega
      · rw [if_neg h10]
        have hv := ih (n / 10) (Nat.div_lt_self (Nat.pos_of_ne_zero h) (by decide))
        simp only [digitsVal, List.foldl_append, List.foldl_cons, List.foldl_nil] at hv ⊢
        rw [hv, digitChar10_toNat (show n % 10 < 10 from Nat.mod_lt n (by decide))]
        omega

theorem natToStr_injective {a b : Nat} (h : natToStr a = natToStr b) : a = b := by
  have : natToChars a = natToChars b := congrArg String.data h
  have := congrArg digitsVal this
  rwa [digitsVal_natToChars, digitsVal_natToChars] at this

/-- Every character emitted for a natural number is a decimal digit. -/
theorem natToChars_digits (n : Nat) :
    ∀ c ∈ natToChars n, 48 ≤ c.toNat ∧ c.toNat ≤ 57 := by
  induction n using Nat.strong_induction_on with
  | _ n ih =>
    by_cases h : n = 0
    · subst h; decide
    · rw [natToChars_step n h]
      intro c hc
      rcases List.mem_append.1 hc with hc | hc
      · by_cases h10 : n / 10 = 0
        · simp [h10] at hc
        · rw [if_neg h10] at hc
          exact ih (n / 10) (Nat.div_lt_self (Nat.pos_of_ne_zero h) (by decide)) c hc
      · have : c = digitChar10 (n % 10) := by simpa using hc
        subst this
        rw [digitChar10_toNat (Nat.mod_lt n (by decide))]
        omega

theorem natToChars_ne_nil (n : Nat) : natToChars n ≠ [] := by
  by_cases h : n = 0
  · subst h; decide
  · rw [natToChars_step n h]
    simp

/-! ## JSON values

`JValue` is the space of values the browser's JSON layer moves through
`localStorage`.  Numbers are restricted to integers: every number the
repository stores (timestamps) is an integer, and float literals are
outside the model. -/

inductive JValue where
  | jnull : JValue
  | jbool : Bool → JValue
  | jnum : Int → JValue
  | jstr : String → JValue
  | jarr : List JValue → JValue
  | jobj : List (String × JValue) → JValue
deriving Repr

mutual

def JValue.beq : JValue → JValue → Bool
  | .jnull, .jnull => true
  | .jbool a, .jbool b => a == b
  | .jnum a, .jnum b => a == b
  | .jstr a, .jstr b => a == b
  | .jarr a, .jarr b => JValue.beqList a b
  | .jobj a, .jobj b => JValue.beqFields a b
  | _, _ => false

def JValue.beqList : List JValue → List JValue → Bool
  | [], [] => true
  | a :: as, b :: bs => JValue.beq a b && JValue.beqList as bs
  | _, _ => false

def JValue.beqFields : List (String × JValue) → List (String × JValue) → Bool
  | [], [] => true
  | (k, a) :: as, (l, b) :: bs => k == l && JValue.beq a b && JValue.beqFields as bs
  | _, _ => false

end

mutual

theorem JValue.beq_iff : ∀ a b : JValue, JValue.beq a b = true ↔ a = b
  | .jnull, b => by cases b <;> simp [JValue.beq]
  | .jbool x, b => by cases b <;> simp [JValue.beq]
  | .jnum x, b => by cases b <;> simp [JValue.beq]
  | .jstr x, b => by cases b <;> simp [JValue.beq]
  | .jarr xs, b => by
    cases b <;> simp only [JValue.beq] <;> try simp
    rw [JValue.beqList_iff]
  | .jobj xs, b => by
    cases b <;> simp only [JValue.beq] <;> try simp
    rw [JValue.beqFields_iff]

theorem JValue.beqList_iff : ∀ a b : List JValue, JValue.beqList a b = true ↔ a = b
  | [], b => by cases b <;> simp [JValue.beqList]
  | x :: xs, b => by
    cases b with
    | nil => simp [JValue.beqList]
    | cons y ys =>
      simp only [JValue.beqList, Bool.and_eq_true]
      rw [JValue.beq_iff, JValue.beqList_iff]
      simp

theorem JValue.beqFields_iff :
    ∀ a b : List (String × JValue), JValue.beqFields a b = true ↔ a = b
  | [], b => by cases b <;> simp [JValue.beqFields]
  | (k, x) :: xs, b => by
    cases b with
    | nil => simp [JValue.beqFields]
    | cons y ys =>
      obtain ⟨l, y⟩ := y
      simp only [JValue.beqFields, Bool.and_eq_true]
      rw [JValue.beq_iff, JValue.beqFields_iff]
      simp [and_assoc]

end

instance : DecidableEq JValue := fun a b =>
  decidable_of_iff (JValue.beq a b = true) (JValue.beq_iff a b)

/-! ## `JSON.stringify`

The printer follows `JSON.stringify`'s compact output: no whitespace,
strings quoted with the two-character escapes for quote, backslash and
the named control characters, `\-u00XX` escapes for the remaining
control characters, all other characters literal. -/

/-- The double-quote character. -/
def quoteChar : Char := Char.ofNat 34

/-- The backslash character. -/
def backslashChar : Char := Char.ofNat 92

/-- The opening curly brace character. -/
def lbraceChar : Char := Char.ofNat 123

/-- The closing curly brace character. -/
def rbraceChar : Char := Char.ofNat 125

/-- Lowercase hexadecimal digit, as JS `toString(16)` renders one. -/
def hexDigitChar (n : Nat) : Char :=
  if n < 10 then Char.ofNat (48 + n) else Char.ofNat (87 + n)

/-- How `JSON.stringify` renders one character inside a string literal. -/
def escapeChar (c : Char) : List Char :=
  if c.toNat = 34 then [backslashChar, quoteChar]
  else if c.toNat = 92 then [backslashChar, backslashChar]
  else if c.toNat = 8 then [backslashChar, Char.ofNat 98]
  else if c.toNat = 9 then [backslashChar, Char.ofNat 116]
  else if c.toNat = 10 then [backslashChar, Char.ofNat 110]
  else if c.toNat = 12 then [backslashChar, Char.ofNat 102]
  else if c.toNat = 13 then [backslashChar, Char.ofNat 114]
  else if c.toNat < 32 then
    [backslashChar, Char.ofNat 117, Char.ofNat 48, Char.ofNat 48,
     hexDigitChar (c.toNat / 16), hexDigitChar (c.toNat % 16)]
  else [c]

/-- The characters of a JSON string literal for `s` (quotes included). -/
def strLitChars (s : String) : List Char :=
  quoteChar :: (s.data.map escapeChar).flatten ++ [quoteChar]

mutual

/-- `JSON.stringify`, producing a character list. -/
def stringifyChars : JValue → List Char
  | .jnull => [Char.ofNat 110, Char.ofNat 117, Char.ofNat 108, Char.ofNat 108]
  | .jbool true => [Char.ofNat 116, Char.ofNat 114, Char.ofNat 117, Char.ofNat 101]
  | .jbool false =>
    [Char.ofNat 102, Char.ofNat 97, Char.ofNat 108, Char.ofNat 115, Char.ofNat 101]
  | .jnum i => (intToStr i).data
  | .jstr s => strLitChars s
  | .jarr xs => Char.ofNat 91 :: stringifyElems xs ++ [Char.ofNat 93]
  | .jobj fs => lbraceChar :: stringifyFields fs ++ [rbraceChar]

/-- Array members separated by commas. -/
def stringifyElems : List JValue → List Char
  | [] => []
  | [x] => stringifyChars x
  | x :: y :: xs => stringifyChars x ++ Char.ofNat 44 :: stringifyElems (y :: xs)

/-- Object members separated by commas, each `"key":value`. -/
def stringifyFields : List (String × JValue) → List Char
  | [] => []
  | [(k, v)] => strLitChars k ++ Char.ofNat 58 :: stringifyChars v
  | (k, v) :: f :: fs =>
    strLitChars k ++ Char.ofNat 58 :: stringifyChars v ++
      Char.ofNat 44 :: stringifyFields (f :: fs)

end

/-- `JSON.stringify` as the repository's `save` paths use it. -/
def stringify (v : JValue) : String := String.mk (stringifyChars v)

/-! ## `JSON.parse`

An executable character-level parser for the same grammar.  Divergences
from the browser's `JSON.parse`, all invisible to the repository's data:
numbers with a fraction or exponent part fail (the model is
integer-valued), redundant leading zeros are accepted, and a `\-u`
escape naming an unpaired surrogate yields the null character rather
than a surrogate half. -/

/-- Characters are equal when their code points are. -/
theorem char_toNat_inj {a b : Char} (h : a.toNat = b.toNat) : a = b :=
  Char.eq_of_val_eq (UInt32.toNat.inj h)

/-- JSON insignificant whitespace. -/
def isWsChar (c : Char) : Bool :=
  c.toNat = 32 || c.toNat = 9 || c.toNat = 10 || c.toNat = 13

/-- Decimal digit test. -/
def isDigitChar (c : Char) : Bool := 48 ≤ c.toNat && c.toNat ≤ 57

/-- Skip insignificant whitespace. -/
def skipWs (cs : List Char) : List Char := cs.dropWhile isWsChar

/-- Value of one hexadecimal digit character. -/
def hexVal (c : Char) : Option Nat :=
  if 48 ≤ c.toNat ∧ c.toNat ≤ 57 then some (c.toNat - 48)
  else if 97 ≤ c.toNat ∧ c.toNat ≤ 102 then some (c.toNat - 87)
  else if 65 ≤ c.toNat ∧ c.toNat ≤ 70 then some (c.toNat - 55)
  else none

/-- Parse the body of a string literal (opening quote already consumed),
returning the decoded characters and the text after the closing quote. -/
def parseStrBody : List Char → Option (List Char × List Char)
  | [] => none
  | c :: cs =>
    if c.toNat = 34 then some ([], cs)
    else if c.toNat = 92 then
      match cs with
      | [] => none
      | e :: cs2 =>
        if e.toNat = 34 then (parseStrBody cs2).map (fun p => (quoteChar :: p.1, p.2))
        else if e.toNat = 92 then
          (parseStrBody cs2).map (fun p => (backslashChar :: p.1, p.2))
        else if e.toNat = 47 then
          (parseStrBody cs2).map (fun p => (Char.ofNat 47 :: p.1, p.2))
        else if e.toNat = 98 then
          (parseStrBody cs2).map (fun p => (Char.ofNat 8 :: p.1, p.2))
        else if e.toNat = 102 then
          (parseStrBody cs2).map (fun p => (Char.ofNat 12 :: p.1, p.2))
        else if e.toNat = 110 then
          (parseStrBody cs2).map (fun p => (Char.ofNat 10 :: p.1, p.2))
        else if e.toNat = 114 then
          (parseStrBody cs2).map (fun p => (Char.ofNat 13 :: p.1, p.2))
        else if e.toNat = 116 then
          (parseStrBody cs2).map (fun p => (Char.ofNat 9 :: p.1, p.2))
        else if e.toNat = 117 then
          match cs2 with
          | h1 :: h2 :: h3 :: h4 :: cs3 =>
            match hexVal h1, hexVal h2, hexVal h3, hexVal h4 with
            | some a, some b, some c', some d =>
              (parseStrBody cs3).map
                (fun p => (Char.ofNat (a * 4096 + b * 256 + c' * 16 + d) :: p.1, p.2))
            | _, _, _, _ => none
          | _ => none
        else none
    else if c.toNat < 32 then none
    else (parseStrBody cs).map (fun p => (c :: p.1, p.2))

/-- Parse a nonempty run of decimal digits. -/
def parseNatNum (cs : List Char) : Option (Nat × List Char) :=
  let ds := cs.takeWhile isDigitChar
  if ds = [] then none else some (digitsVal ds, cs.dropWhile isDigitChar)

/-- Parse a JSON number (integer-valued in this model). -/
def parseNum : List Char → Option (Int × List Char)
  | [] => none
  | c :: r =>
    if c.toNat = 45 then (parseNatNum r).map (fun p => (-(p.1 : Int), p.2))
    else (parseNatNum (c :: r)).map (fun p => ((p.1 : Int), p.2))

/-- The four characters of the literal `null`. -/
def nullLit : List Char := [Char.ofNat 110, Char.ofNat 117, Char.ofNat 108, Char.ofNat 108]

/-- The four characters of the literal `true`. -/
def trueLit : List Char := [Char.ofNat 116, Char.ofNat 114, Char.ofNat 117, Char.ofNat 101]

/-- The five characters of the literal `false`. -/
def falseLit : List Char :=
  [Char.ofNat 102, Char.ofNat 97, Char.ofNat 108, Char.ofNat 115, Char.ofNat 101]

mutual

/-- Parse one JSON value from whitespace-stripped text; `fuel` bounds
the nesting depth the parser will enter. -/
def parseValC : Nat → List Char → Option (JValue × List Char)
  | 0, _ => none
  | _ + 1, [] => none
  | fuel + 1, c :: r =>
    if c.toNat = 91 then (parseElemsC fuel true (skipWs r)).map (fun p => (.jarr p.1, p.2))
    else if c.toNat = 123 then
      (parseFieldsC fuel true (skipWs r)).map (fun p => (.jobj p.1, p.2))
    else if c.toNat = 34 then (parseStrBody r).map (fun p => (.jstr (String.mk p.1), p.2))
    else if c.toNat = 45 || isDigitChar c then
      (parseNum (c :: r)).map (fun p => (.jnum p.1, p.2))
    else if (c :: r).take 4 = nullLit then some (.jnull, (c :: r).drop 4)
    else if (c :: r).take 4 = trueLit then some (.jbool true, (c :: r).drop 4)
    else if (c :: r).take 5 = falseLit then some (.jbool false, (c :: r).drop 5)
    else none

/-- Parse array members after `[` (whitespace stripped); `allowEnd` is
false right after a comma, where `]` would make a trailing comma. -/
def parseElemsC : Nat → Bool → List Char → Option (List JValue × List Char)
  | 0, _, _ => none
  | _ + 1, _, [] => none
  | fuel + 1, allowEnd, c :: r =>
    if c.toNat = 93 then (if allowEnd then some ([], r) else none)
    else (parseValC fuel (c :: r)).bind (fun p => elemSepC fuel p.1 (skipWs p.2))

/-- After an array member: a comma continues the array, `]` ends it. -/
def elemSepC : Nat → JValue → List Char → Option (List JValue × List Char)
  | 0, _, _ => none
  | _ + 1, _, [] => none
  | fuel + 1, v, c :: r =>
    if c.toNat = 44 then (parseElemsC fuel false (skipWs r)).map (fun p => (v :: p.1, p.2))
    else if c.toNat = 93 then some ([v], r)
    else none

/-- Parse object members after the opening brace (whitespace stripped). -/
def parseFieldsC : Nat → Bool → List Char → Option (List (String × JValue) × List Char)
  | 0, _, _ => none
  | _ + 1, _, [] => none
  | fuel + 1, allowEnd, c :: r =>
    if c.toNat = 125 then (if allowEnd then some ([], r) else none)
    else if c.toNat = 34 then
      (parseStrBody r).bind (fun p => keySepC fuel p.1 (skipWs p.2))
    else none

/-- After a member key: expect `:` and then the member value. -/
def keySepC : Nat → List Char → List Char → Option (List (String × JValue) × List Char)
  | 0, _, _ => none
  | _ + 1, _, [] => none
  | fuel + 1, ks, c :: r =>
    if c.toNat = 58 then
      (parseValC fuel (skipWs r)).bind
        (fun p => fieldSepC fuel (String.mk ks, p.1) (skipWs p.2))
    else none

/-- After an object member: a comma continues, the closing brace ends. -/
def fieldSepC :
    Nat → (String × JValue) → List Char → Option (List (String × JValue) × List Char)
  | 0, _, _ => none
  | _ + 1, _, [] => none
  | fuel + 1, f, c :: r =>
    if c.toNat = 44 then
      (parseFieldsC fuel false (skipWs r)).map (fun p => (f :: p.1, p.2))
    else if c.toNat = 125 then some ([f], r)
    else none

end

/-- `JSON.parse`: parse a whole text, `none` standing for a thrown
`SyntaxError`. -/
def jsonParse (s : String) : Option JValue :=
  match parseValC (3 * s.length + 3) (skipWs s.data) with
  | some (v, r) => if skipWs r = [] then some v else none
  | none => none

/-! ## Round trip: the parser inverts the printer -/

theorem skipWs_cons (c : Char) (cs : List Char) (h : isWsChar c = false) :
    skipWs (c :: cs) = c :: cs := by
  simp [skipWs, List.dropWhile_cons, h]

theorem hexVal_hexDigitChar {k : Nat} (h : k < 16) : hexVal (hexDigitChar k) = some k := by
  interval_cases k <;> decide

theorem parseStrBody_escape (cs : List Char) (rest : List Char) :
    parseStrBody ((cs.map escapeChar).flatten ++ quoteChar :: rest) = some (cs, rest) := by
  induction cs with
  | nil => rw [parseStrBody.eq_def]; simp +decide
  | cons c cs ih =>
    show parseStrBody ((escapeChar c ++ (cs.map escapeChar).flatten) ++ quoteChar :: rest)
      = some (c :: cs, rest)
    rw [escapeChar]
    split_ifs with h1 h2 h3 h4 h5 h6 h7 h8
    · have hcq : c = quoteChar := char_toNat_inj (by rw [h1]; decide)
      subst hcq; rw [parseStrBody.eq_def]; simp +decide [ih]
    · have hcb : c = backslashChar := char_toNat_inj (by rw [h2]; decide)
      subst hcb; rw [parseStrBody.eq_def]; simp +decide [ih]
    · have hce : c = Char.ofNat 8 := char_toNat_inj (by rw [h3]; decide)
      subst hce; rw [parseStrBody.eq_def]; simp +decide [ih]
    · have hce : c = Char.ofNat 9 := char_toNat_inj (by rw [h4]; decide)
      subst hce; rw [parseStrBody.eq_def]; simp +decide [ih]
    · have hce : c = Char.ofNat 10 := char_toNat_inj (by rw [h5]; decide)
      subst hce; rw [parseStrBody.eq_def]; simp +decide [ih]
    · have hce : c = Char.ofNat 12 := char_toNat_inj (by rw [h6]; decide)
      subst hce; rw [parseStrBody.eq_def]; simp +decide [ih]
    · have hce : c = Char.ofNat 13 := char_toNat_inj (by rw [h7]; decide)
      subst hce; rw [parseStrBody.eq_def]; simp +decide [ih]
    · -- general control character, escaped as a hexadecimal escape
      have hx1 : hexVal (hexDigitChar (c.toNat / 16)) = some (c.toNat / 16) :=
        hexVal_hexDigitChar (by omega)
      have hx2 : hexVal (hexDigitChar (c.toNat % 16)) = some (c.toNat % 16) :=
        hexVal_hexDigitChar (Nat.mod_lt _ (by decide))
      have hc : Char.ofNat (c.toNat / 16 * 16 + c.toNat % 16) = c := by
        rw [show c.toNat / 16 * 16 + c.toNat % 16 = c.toNat by omega]
        exact Char.ofNat_toNat c
      have hx0 : hexVal (Char.ofNat 48) = some 0 := by decide
      rw [parseStrBody.eq_def]
      simp +decide [hx0, hx1, hx2, hc, ih]
    · -- ordinary character, emitted literally
      rw [parseStrBody.eq_def]
      simp only [List.cons_append, List.nil_append]
      rw [if_neg h1, if_neg h2, if_neg (by omega), ih]
      rfl

theorem takeWhile_digits {xs ys : List Char} (hx : ∀ c ∈ xs, isDigitChar c = true)
    (hy : ∀ c, ys.head? = some c → isDigitChar c = false) :
    (xs ++ ys).takeWhile isDigitChar = xs ∧ (xs ++ ys).dropWhile isDigitChar = ys := by
  induction xs with
  | nil =>
    simp only [List.nil_append]
    cases ys with
    | nil => simp
    | cons y ys =>
      have hy0 := hy y rfl
      simp [List.takeWhile_cons, List.dropWhile_cons, hy0]
  | cons x xs ih =>
    have hx0 := hx x (List.mem_cons_self x xs)
    have hr := ih (fun c hc => hx c (List.mem_cons_of_mem x hc))
    simp [List.takeWhile_cons, List.dropWhile_cons, hx0, hr.1, hr.2]

theorem natToChars_isDigit (n : Nat) : ∀ c ∈ natToChars n, isDigitChar c = true := by
  intro c hc
  have h := natToChars_digits n c hc
  simp only [isDigitChar, Bool.and_eq_true, decide_eq_true_eq]
  omega

theorem parseNatNum_natToChars (n : Nat) (rest : List Char)
    (hrest : ∀ c, rest.head? = some c → isDigitChar c = false) :
    parseNatNum (natToChars n ++ rest) = some (n, rest) := by
  obtain ⟨ht, hd⟩ := takeWhile_digits (natToChars_isDigit n) hrest
  simp only [parseNatNum, ht, hd]
  rw [if_neg (natToChars_ne_nil n), digitsVal_natToChars]

theorem parseNum_intToStr (i : Int) (rest : List Char)
    (hrest : ∀ c, rest.head? = some c → isDigitChar c = false) :
    parseNum ((intToStr i).data ++ rest) = some (i, rest) := by
  by_cases h : i < 0
  · rw [intToStr, if_pos h]
    show parseNum (Char.ofNat 45 :: (natToChars i.natAbs ++ rest)) = some (i, rest)
    rw [show parseNum (Char.ofNat 45 :: (natToChars i.natAbs ++ rest)) =
        Option.map (fun p => (-(p.1 : Int), p.2))
          (parseNatNum (natToChars i.natAbs ++ rest)) by
      simp only [parseNum]
      rw [if_pos (by decide)]]
    rw [parseNatNum_natToChars i.natAbs rest hrest]
    simp only [Option.map_some']
    congr 1
    congr 1
    omega
  · rw [intToStr, if_neg h, natToStr]
    obtain ⟨c, tail, hct⟩ : ∃ c tail, natToChars i.toNat = c :: tail := by
      cases hne : natToChars i.toNat with
      | nil => exact absurd hne (natToChars_ne_nil _)
      | cons c tail => exact ⟨c, tail, rfl⟩
    have hb := natToChars_digits i.toNat c (by rw [hct]; exact List.mem_cons_self c tail)
    show parseNum (natToChars i.toNat ++ rest) = some (i, rest)
    rw [hct]
    show parseNum (c :: (tail ++ rest)) = some (i, rest)
    rw [show parseNum (c :: (tail ++ rest)) =
        Option.map (fun p => ((p.1 : Int), p.2)) (parseNatNum (c :: (tail ++ rest))) by
      simp only [parseNum]
      exact if_neg (by omega)]
    rw [show c :: (tail ++ rest) = natToChars i.toNat ++ rest by rw [hct]; rfl]
    rw [parseNatNum_natToChars i.toNat rest hrest]
    simp only [Option.map_some']
    congr 2
    omega

/-- The first character a value prints is not whitespace, nor any of the
separators the surrounding grammar looks for. -/
theorem stringify_head (v : JValue) :
    ∃ c tail, stringifyChars v = c :: tail ∧ isWsChar c = false ∧
      c.toNat ≠ 93 ∧ c.toNat ≠ 44 ∧ c.toNat ≠ 125 ∧ c.toNat ≠ 58 := by
  cases v with
  | jnull => exact ⟨_, _, rfl, by decide, by decide, by decide, by decide, by decide⟩
  | jbool b =>
    cases b
    · exact ⟨_, _, rfl, by decide, by decide, by decide, by decide, by decide⟩
    · exact ⟨_, _, rfl, by decide, by decide, by decide, by decide, by decide⟩
  | jnum i =>
    by_cases h : i < 0
    · refine ⟨Char.ofNat 45, natToChars i.natAbs, ?_, by decide, by decide, by decide,
        by decide, by decide⟩
      show (intToStr i).data = _
      rw [intToStr, if_pos h]
    · obtain ⟨c, tail, hct⟩ : ∃ c tail, natToChars i.toNat = c :: tail := by
        cases hne : natToChars i.toNat with
        | nil => exact absurd hne (natToChars_ne_nil _)
        | cons c tail => exact ⟨c, tail, rfl⟩
      have hb := natToChars_digits i.toNat c (by rw [hct]; exact List.mem_cons_self c tail)
      refine ⟨c, tail, ?_, ?_, by omega, by omega, by omega, by omega⟩
      · show (intToStr i).data = _
        rw [intToStr, if_neg h, natToStr, hct]
      · simp only [isWsChar, Bool.or_eq_false_iff, decide_eq_false_iff_not]
        omega
  | jstr s => exact ⟨_, _, rfl, by decide, by decide, by decide, by decide, by decide⟩
  | jarr xs => exact ⟨_, _, rfl, by decide, by decide, by decide, by decide, by decide⟩
  | jobj fs => exact ⟨_, _, rfl, by decide, by decide, by decide, by decide, by decide⟩

/-! ### Fuel bookkeeping for the round trip -/

mutual

/-- Fuel sufficient to parse a printed value. -/
def sizeV : JValue → Nat
  | .jnull => 1
  | .jbool _ => 1
  | .jnum _ => 1
  | .jstr _ => 1
  | .jarr xs => 1 + sizeElems xs
  | .jobj fs => 1 + sizeFields fs

/-- Fuel sufficient to parse printed array members. -/
def sizeElems : List JValue → Nat
  | [] => 1
  | v :: vs => 2 + sizeV v + sizeElems vs

/-- Fuel sufficient to parse printed object members. -/
def sizeFields : List (String × JValue) → Nat
  | [] => 1
  | f :: fs => 2 + sizeV f.2 + sizeFields fs

end

theorem sizeV_pos (v : JValue) : 1 ≤ sizeV v := by
  cases v <;> simp [sizeV]

theorem sizeElems_pos (vs : List JValue) : 1 ≤ sizeElems vs := by
  cases vs <;> simp only [sizeElems] <;> omega

theorem sizeFields_pos (fs : List (String × JValue)) : 1 ≤ sizeFields fs := by
  cases fs <;> simp only [sizeFields] <;> omega

/-! ### Atom cases of the round trip -/

theorem take4_cons (a b c d : Char) (r : List Char) :
    List.take 4 (a :: b :: c :: d :: r) = [a, b, c, d] := rfl

theorem drop4_cons (a b c d : Char) (r : List Char) :
    List.drop 4 (a :: b :: c :: d :: r) = r := rfl

theorem take5_cons (a b c d e : Char) (r : List Char) :
    List.take 5 (a :: b :: c :: d :: e :: r) = [a, b, c, d, e] := rfl

theorem drop5_cons (a b c d e : Char) (r : List Char) :
    List.drop 5 (a :: b :: c :: d :: e :: r) = r := rfl

theorem parseValC_null (fuel : Nat) (rest : List Char) :
    parseValC (fuel + 1) (stringifyChars .jnull ++ rest) = some (.jnull, rest) := by
  show parseValC (fuel + 1)
      (Char.ofNat 110 :: Char.ofNat 117 :: Char.ofNat 108 :: Char.ofNat 108 :: rest) = _
  simp only [parseValC, take4_cons, drop4_cons]
  rw [if_neg (by decide), if_neg (by decide), if_neg (by decide), if_neg (by decide),
    if_pos (by decide)]

theorem parseValC_bool (fuel : Nat) (b : Bool) (rest : List Char) :
    parseValC (fuel + 1) (stringifyChars (.jbool b) ++ rest) = some (.jbool b, rest) := by
  cases b
  · show parseValC (fuel + 1) (Char.ofNat 102 :: Char.ofNat 97 :: Char.ofNat 108 ::
        Char.ofNat 115 :: Char.ofNat 101 :: rest) = _
    simp only [parseValC, take4_cons, take5_cons, drop5_cons]
    rw [if_neg (by decide), if_neg (by decide), if_neg (by decide), if_neg (by decide),
      if_neg (by decide), if_neg (by decide), if_pos (by decide)]
  · show parseValC (fuel + 1)
        (Char.ofNat 116 :: Char.ofNat 114 :: Char.ofNat 117 :: Char.ofNat 101 :: rest) = _
    simp only [parseValC, take4_cons, drop4_cons]
    rw [if_neg (by decide), if_neg (by decide), if_neg (by decide), if_neg (by decide),
      if_neg (by decide), if_pos (by decide)]

theorem parseValC_num (fuel : Nat) (i : Int) (rest : List Char)
    (hrest : ∀ c, rest.head? = some c → isDigitChar c = false) :
    parseValC (fuel + 1) (stringifyChars (.jnum i) ++ rest) = some (.jnum i, rest) := by
  have hp := parseNum_intToStr i rest hrest
  by_cases h : i < 0
  · have he : stringifyChars (.jnum i) ++ rest
        = Char.ofNat 45 :: (natToChars i.natAbs ++ rest) := by
      show (intToStr i).data ++ rest = _
      rw [intToStr, if_pos h]
      rfl
    rw [he]
    simp only [parseValC]
    rw [if_neg (by decide), if_neg (by decide), if_neg (by decide), if_pos (by decide)]
    rw [show Char.ofNat 45 :: (natToChars i.natAbs ++ rest) = (intToStr i).data ++ rest by
      rw [intToStr, if_pos h]
      rfl]
    rw [hp]
    rfl
  · obtain ⟨c, tail, hct⟩ : ∃ c tail, natToChars i.toNat = c :: tail := by
      cases hne : natToChars i.toNat with
      | nil => exact absurd hne (natToChars_ne_nil _)
      | cons c tail => exact ⟨c, tail, rfl⟩
    have hb := natToChars_digits i.toNat c (by rw [hct]; exact List.mem_cons_self c tail)
    have he : stringifyChars (.jnum i) ++ rest = c :: (tail ++ rest) := by
      show (intToStr i).data ++ rest = _
      rw [intToStr, if_neg h, natToStr, hct]
      rfl
    rw [he]
    simp only [parseValC]
    rw [if_neg (by omega), if_neg (by omega), if_neg (by omega),
      if_pos (by simp only [isDigitChar, Bool.or_eq_true, decide_eq_true_eq,
        Bool.and_eq_true]; omega)]
    rw [show c :: (tail ++ rest) = (intToStr i).data ++ rest by
      rw [intToStr, if_neg h, natToStr, hct]; rfl]
    rw [hp]
    rfl

theorem parseValC_str (fuel : Nat) (s : String) (rest : List Char) :
    parseValC (fuel + 1) (stringifyChars (.jstr s) ++ rest) = some (.jstr s, rest) := by
  have he : stringifyChars (.jstr s) ++ rest
      = quoteChar :: ((s.data.map escapeChar).flatten ++ quoteChar :: rest) := by
    show strLitChars s ++ rest = _
    rw [strLitChars]
    simp
  rw [he]
  simp only [parseValC]
  rw [if_neg (by decide), if_neg (by decide), if_pos (by decide)]
  rw [parseStrBody_escape s.data rest]
  rfl

/-! ### Leading-character facts for printed fragments -/

theorem stringifyElems_cons (v : JValue) (vs : List JValue) :
    stringifyElems (v :: vs)
      = stringifyChars v
          ++ (if vs.isEmpty then [] else Char.ofNat 44 :: stringifyElems vs) := by
  cases vs with
  | nil => simp [stringifyElems]
  | cons w ws => rfl

theorem skipWs_val_text (v : JValue) (X : List Char) :
    skipWs (stringifyChars v ++ X) = stringifyChars v ++ X := by
  obtain ⟨c, tail, hct, hws, _, _, _, _⟩ := stringify_head v
  rw [hct]
  exact skipWs_cons _ _ hws

theorem skipWs_elems_text (xs : List JValue) (rest : List Char) :
    skipWs (stringifyElems xs ++ Char.ofNat 93 :: rest)
      = stringifyElems xs ++ Char.ofNat 93 :: rest := by
  cases xs with
  | nil => exact skipWs_cons _ _ (by decide)
  | cons v vs =>
    rw [stringifyElems_cons, List.append_assoc]
    exact skipWs_val_text v _

theorem skipWs_fields_text (fs : List (String × JValue)) (rest : List Char) :
    skipWs (stringifyFields fs ++ rbraceChar :: rest)
      = stringifyFields fs ++ rbraceChar :: rest := by
  cases fs with
  | nil => exact skipWs_cons _ _ (by decide)
  | cons f fs' =>
    obtain ⟨T, hT⟩ : ∃ T, stringifyFields (f :: fs') = quoteChar :: T := by
      obtain ⟨k, v⟩ := f
      cases fs' with
      | nil => exact ⟨_, rfl⟩
      | cons g gs => exact ⟨_, rfl⟩
    rw [hT]
    exact skipWs_cons _ _ (by decide)

/-! ### The round trip, by induction on fuel -/

theorem parseC_stringify (fuel : Nat) :
    (∀ v rest, sizeV v ≤ fuel → (∀ c, rest.head? = some c → isDigitChar c = false) →
      parseValC fuel (stringifyChars v ++ rest) = some (v, rest)) ∧
    (∀ vs rest allowEnd, sizeElems vs ≤ fuel → (vs = [] → allowEnd = true) →
      parseElemsC fuel allowEnd (stringifyElems vs ++ Char.ofNat 93 :: rest)
        = some (vs, rest)) ∧
    (∀ fs rest allowEnd, sizeFields fs ≤ fuel → (fs = [] → allowEnd = true) →
      parseFieldsC fuel allowEnd (stringifyFields fs ++ rbraceChar :: rest)
        = some (fs, rest)) := by
  induction fuel using Nat.strong_induction_on with
  | _ fuel ih =>
    match fuel with
    | 0 =>
      refine ⟨fun v rest h _ => absurd h (by have := sizeV_pos v; omega),
        fun vs rest _ h _ => absurd h (by have := sizeElems_pos vs; omega),
        fun fs rest _ h _ => absurd h (by have := sizeFields_pos fs; omega)⟩
    | fuel + 1 =>
      obtain ⟨ihV, ihE, ihF⟩ := ih fuel (Nat.lt_succ_self fuel)
      refine ⟨?_, ?_, ?_⟩
      · intro v rest hsz hrest
        cases v with
        | jnull => exact parseValC_null fuel rest
        | jbool b => exact parseValC_bool fuel b rest
        | jnum i => exact parseValC_num fuel i rest hrest
        | jstr s => exact parseValC_str fuel s rest
        | jarr xs =>
          have hsz' : sizeElems xs ≤ fuel := by
            rw [show sizeV (.jarr xs) = 1 + sizeElems xs from rfl] at hsz
            omega
          have he : stringifyChars (.jarr xs) ++ rest
              = Char.ofNat 91 :: (stringifyElems xs ++ Char.ofNat 93 :: rest) := by
            show (Char.ofNat 91 :: (stringifyElems xs ++ [Char.ofNat 93])) ++ rest = _
            simp
          rw [he]
          simp only [parseValC]
          rw [if_pos (by decide), skipWs_elems_text xs rest,
            ihE xs rest true hsz' (fun _ => rfl)]
          rfl
        | jobj fs =>
          have hsz' : sizeFields fs ≤ fuel := by
            rw [show sizeV (.jobj fs) = 1 + sizeFields fs from rfl] at hsz
            omega
          have he : stringifyChars (.jobj fs) ++ rest
              = lbraceChar :: (stringifyFields fs ++ rbraceChar :: rest) := by
            show (lbraceChar :: (stringifyFields fs ++ [rbraceChar])) ++ rest = _
            simp
          rw [he]
          simp only [parseValC]
          rw [if_neg (by decide), if_pos (by decide), skipWs_fields_text fs rest,
            ihF fs rest true hsz' (fun _ => rfl)]
          rfl
      · intro vs rest allowEnd hsz hne
        cases vs with
        | nil =>
          rw [hne rfl]
          show parseElemsC (fuel + 1) true (Char.ofNat 93 :: rest) = some ([], rest)
          simp only [parseElemsC]
          rw [if_pos (by decide)]
          rfl
        | cons v vs' =>
          obtain ⟨c, tail, hct, hws, h93, h44, h125, h58⟩ := stringify_head v
          rw [show sizeElems (v :: vs') = 2 + sizeV v + sizeElems vs' from rfl] at hsz
          have hvpos := sizeV_pos v
          have hepos := sizeElems_pos vs'
          have hv : sizeV v ≤ fuel := by omega
          -- the separator helper needs one unit of fuel of its own
          obtain ⟨f, rfl⟩ : ∃ f, fuel = f + 1 := ⟨fuel - 1, by omega⟩
          obtain ⟨ihV2, ihE2, ihF2⟩ := ih (f + 1) (by omega)
          obtain ⟨ihV3, ihE3, ihF3⟩ := ih f (by omega)
          cases vs' with
          | nil =>
            have he : stringifyElems [v] ++ Char.ofNat 93 :: rest
                = c :: (tail ++ Char.ofNat 93 :: rest) := by
              show stringifyChars v ++ Char.ofNat 93 :: rest = _
              rw [hct]
              rfl
            rw [he]
            simp only [parseElemsC]
            rw [if_neg (by omega)]
            rw [show c :: (tail ++ Char.ofNat 93 :: rest)
                = stringifyChars v ++ Char.ofNat 93 :: rest by rw [hct]; rfl]
            rw [ihV2 v (Char.ofNat 93 :: rest) hv (by
              intro c' hc'
              simp only [List.head?_cons, Option.some.injEq] at hc'
              subst hc'
              decide)]
            show elemSepC (f + 1) v (skipWs (Char.ofNat 93 :: rest)) = some ([v], rest)
            rw [skipWs_cons _ _ (by decide)]
            simp only [elemSepC]
            rw [if_neg (by decide), if_pos (by decide)]
          | cons v' vs'' =>
            have hs' : sizeElems (v' :: vs'') ≤ f := by omega
            have he : stringifyElems (v :: v' :: vs'') ++ Char.ofNat 93 :: rest
                = c :: (tail ++ (Char.ofNat 44 ::
                    (stringifyElems (v' :: vs'') ++ Char.ofNat 93 :: rest))) := by
              show (stringifyChars v ++ Char.ofNat 44 :: stringifyElems (v' :: vs''))
                  ++ Char.ofNat 93 :: rest = _
              rw [hct]
              simp
            rw [he]
            simp only [parseElemsC]
            rw [if_neg (by omega)]
            rw [show c :: (tail ++ (Char.ofNat 44 ::
                  (stringifyElems (v' :: vs'') ++ Char.ofNat 93 :: rest)))
                = stringifyChars v ++ (Char.ofNat 44 ::
                  (stringifyElems (v' :: vs'') ++ Char.ofNat 93 :: rest)) by rw [hct]; rfl]
            rw [ihV2 v _ hv (by
              intro c' hc'
              simp only [List.head?_cons, Option.some.injEq] at hc'
              subst hc'
              decide)]
            show elemSepC (f + 1) v (skipWs (Char.ofNat 44 ::
                (stringifyElems (v' :: vs'') ++ Char.ofNat 93 :: rest))) = _
            rw [skipWs_cons _ _ (by decide)]
            simp only [elemSepC]
            rw [if_pos (by decide), skipWs_elems_text,
              ihE3 (v' :: vs'') rest false hs' (fun hq => absurd hq (by simp))]
            rfl
      · intro fs rest allowEnd hsz hne
        cases fs with
        | nil =>
          rw [hne rfl]
          show parseFieldsC (fuel + 1) true (rbraceChar :: rest) = some ([], rest)
          simp only [parseFieldsC]
          rw [if_pos (by decide)]
          rfl
        | cons fld fs' =>
          obtain ⟨k, v⟩ := fld
          rw [show sizeFields ((k, v) :: fs') = 2 + sizeV v + sizeFields fs'
            from rfl] at hsz
          have hvpos := sizeV_pos v
          have hfpos := sizeFields_pos fs'
          -- the key and member separators each need a unit of fuel
          obtain ⟨f, rfl⟩ : ∃ f, fuel = f + 1 := ⟨fuel - 1, by omega⟩
          have hv : sizeV v ≤ f := by omega
          obtain ⟨ihV2, ihE2, ihF2⟩ := ih (f + 1) (by omega)
          obtain ⟨ihV3, ihE3, ihF3⟩ := ih f (by omega)
          cases fs' with
          | nil =>
            have he : stringifyFields [(k, v)] ++ rbraceChar :: rest
                = quoteChar :: ((k.data.map escapeChar).flatten ++ quoteChar ::
                    (Char.ofNat 58 :: (stringifyChars v ++ rbraceChar :: rest))) := by
              show (strLitChars k ++ Char.ofNat 58 :: stringifyChars v)
                  ++ rbraceChar :: rest = _
              rw [strLitChars]
              simp
            rw [he]
            simp only [parseFieldsC]
            rw [if_neg (by decide), if_pos (by decide),
              parseStrBody_escape k.data
                (Char.ofNat 58 :: (stringifyChars v ++ rbraceChar :: rest))]
            show keySepC (f + 1) k.data
                (skipWs (Char.ofNat 58 :: (stringifyChars v ++ rbraceChar :: rest))) = _
            rw [skipWs_cons _ _ (by decide)]
            simp only [keySepC]
            rw [if_pos (by decide), skipWs_val_text v (rbraceChar :: rest),
              ihV3 v (rbraceChar :: rest) hv (by
                intro c' hc'
                simp only [List.head?_cons, Option.some.injEq] at hc'
                subst hc'
                decide)]
            show fieldSepC f (String.mk k.data, v) (skipWs (rbraceChar :: rest)) = _
            obtain ⟨g, rfl⟩ : ∃ g, f = g + 1 := ⟨f - 1, by omega⟩
            rw [skipWs_cons _ _ (by decide)]
            simp only [fieldSepC]
            rw [if_neg (by decide), if_pos (by decide)]
          | cons gfld gs =>
            have hs' : sizeFields (gfld :: gs) ≤ f - 1 := by omega
            have he : stringifyFields ((k, v) :: gfld :: gs) ++ rbraceChar :: rest
                = quoteChar :: ((k.data.map escapeChar).flatten ++ quoteChar ::
                    (Char.ofNat 58 :: (stringifyChars v ++ Char.ofNat 44 ::
                      (stringifyFields (gfld :: gs) ++ rbraceChar :: rest)))) := by
              show (strLitChars k ++ Char.ofNat 58 :: stringifyChars v ++ Char.ofNat 44 ::
                  stringifyFields (gfld :: gs)) ++ rbraceChar :: rest = _
              rw [strLitChars]
              simp
            rw [he]
            simp only [parseFieldsC]
            rw [if_neg (by decide), if_pos (by decide),
              parseStrBody_escape k.data (Char.ofNat 58 :: (stringifyChars v ++
                Char.ofNat 44 :: (stringifyFields (gfld :: gs) ++ rbraceChar :: rest)))]
            show keySepC (f + 1) k.data (skipWs (Char.ofNat 58 :: (stringifyChars v ++
                Char.ofNat 44 :: (stringifyFields (gfld :: gs) ++ rbraceChar :: rest)))) = _
            rw [skipWs_cons _ _ (by decide)]
            simp only [keySepC]
            rw [if_pos (by decide), skipWs_val_text v _,
              ihV3 v _ hv (by
                intro c' hc'
                simp only [List.head?_cons, Option.some.injEq] at hc'
                subst hc'
                decide)]
            show fieldSepC f (String.mk k.data, v) (skipWs (Char.ofNat 44 ::
                (stringifyFields (gfld :: gs) ++ rbraceChar :: rest))) = _
            obtain ⟨g, rfl⟩ : ∃ g, f = g + 1 := ⟨f - 1, by omega⟩
            obtain ⟨ihV4, ihE4, ihF4⟩ := ih g (by omega)
            rw [skipWs_cons _ _ (by decide)]
            simp only [fieldSepC]
            rw [if_pos (by decide), skipWs_fields_text,
              ihF4 (gfld :: gs) rest false (by omega) (fun hq => absurd hq (by simp))]
            rfl

theorem stringifyChars_length_pos (v : JValue) : 1 ≤ (stringifyChars v).length := by
  obtain ⟨c, tail, hct, _⟩ := stringify_head v
  rw [hct]
  simp

mutual

theorem sizeV_le : ∀ v : JValue, sizeV v ≤ 3 * (stringifyChars v).length
  | .jnull => by decide
  | .jbool b => by cases b <;> decide
  | .jnum i => by
    have := stringifyChars_length_pos (.jnum i)
    have h1 : sizeV (.jnum i) = 1 := rfl
    omega
  | .jstr s => by
    have := stringifyChars_length_pos (.jstr s)
    have h1 : sizeV (.jstr s) = 1 := rfl
    omega
  | .jarr xs => by
    have h := sizeElems_le xs
    show 1 + sizeElems xs
        ≤ 3 * (Char.ofNat 91 :: (stringifyElems xs ++ [Char.ofNat 93])).length
    simp only [List.length_cons, List.length_append, List.length_singleton]
    omega
  | .jobj fs => by
    have h := sizeFields_le fs
    show 1 + sizeFields fs
        ≤ 3 * (lbraceChar :: (stringifyFields fs ++ [rbraceChar])).length
    simp only [List.length_cons, List.length_append, List.length_singleton]
    omega

theorem sizeElems_le : ∀ vs : List JValue, sizeElems vs ≤ 3 * (stringifyElems vs).length + 3
  | [] => by decide
  | [v] => by
    have h := sizeV_le v
    show 2 + sizeV v + sizeElems [] ≤ 3 * (stringifyChars v).length + 3
    have h1 : sizeElems [] = 1 := rfl
    omega
  | v :: v' :: vs => by
    have h1 := sizeV_le v
    have h2 := sizeElems_le (v' :: vs)
    show 2 + sizeV v + sizeElems (v' :: vs)
        ≤ 3 * (stringifyChars v ++ Char.ofNat 44 :: stringifyElems (v' :: vs)).length + 3
    rw [List.length_append, List.length_cons]
    omega

theorem sizeFields_le :
    ∀ fs : List (String × JValue), sizeFields fs ≤ 3 * (stringifyFields fs).length + 3
  | [] => by decide
  | [(k, v)] => by
    have h := sizeV_le v
    show 2 + sizeV v + sizeFields []
        ≤ 3 * (strLitChars k ++ Char.ofNat 58 :: stringifyChars v).length + 3
    rw [List.length_append, List.length_cons]
    have h1 : sizeFields [] = 1 := rfl
    omega
  | (k, v) :: g :: gs => by
    have h1 := sizeV_le v
    have h2 := sizeFields_le (g :: gs)
    show 2 + sizeV v + sizeFields (g :: gs)
        ≤ 3 * (strLitChars k ++ Char.ofNat 58 :: stringifyChars v ++ Char.ofNat 44 ::
            stringifyFields (g :: gs)).length + 3
    simp only [List.length_append, List.length_cons]
    omega

end

theorem skipWs_stringify (v : JValue) : skipWs (stringifyChars v) = stringifyChars v := by
  have := skipWs_val_text v []
  simpa using this

/-- The parser inverts the printer: `JSON.parse(JSON.stringify(v))`
recovers `v` for every JSON value. -/
theorem jsonParse_stringify (v : JValue) : jsonParse (stringify v) = some v := by
  have hsz : sizeV v ≤ 3 * (stringify v).length + 3 := by
    have h := sizeV_le v
    have : (stringify v).length = (stringifyChars v).length := rfl
    omega
  have h := (parseC_stringify (3 * (stringify v).length + 3)).1 v [] hsz
    (by intro c hc; simp at hc)
  rw [List.append_nil] at h
  rw [jsonParse]
  rw [show (stringify v).data = stringifyChars v from rfl, skipWs_stringify v, h]
  rfl

/-! ## The persistence layer

A storage cell is `Option String`: `none` when `localStorage` has no
entry at the key.  `getItem` then returns JS `null`, and `JSON.parse`
coerces that argument to the text "null" — which parses successfully to
the JSON null value rather than throwing.  `getItemText` routes an
absent cell through the same coercion. -/

/-- The text `JSON.parse` receives for a cell: the stored string, or the
coercion of JS `null` for an absent entry. -/
def getItemText : Option String → String
  | none => "null"
  | some s => s

/-- `safelyParseJson(text, fallback)` from both source files:
`try { return JSON.parse(text); } catch { return fallback; }`. -/
def safelyParseJson (text : String) (fallback : JValue) : JValue :=
  (jsonParse text).getD fallback

/-- `localStorage.setItem(key, JSON.stringify(value))`, as every save
path performs it. -/
def storageSave (v : JValue) : Option String := some (stringify v)

/-- Truthiness of a JSON value, as a JS `if` sees it. -/
def jsTruthy : JValue → Bool
  | .jnull => false
  | .jbool b => b
  | .jnum n => decide (n ≠ 0)
  | .jstr s => decide (s ≠ "")
  | .jarr _ => true
  | .jobj _ => true

/-- JS `Array.isArray`. -/
def isArray : JValue → Bool
  | .jarr _ => true
  | _ => false

/-- JS `typeof x === 'object'`: true for objects, arrays and `null`. -/
def typeofObject : JValue → Bool
  | .jobj _ => true
  | .jarr _ => true
  | .jnull => true
  | _ => false

/-- JS member access `t[k]`: a TypeError (modelled as `.error ()`) on
`null`, the member for objects (the last duplicate wins, as after
`JSON.parse`), `undefined` (modelled as `none`) otherwise. -/
def jsMember : JValue → String → Except Unit (Option JValue)
  | .jnull, _ => .error ()
  | .jobj fs, k => .ok ((fs.reverse.find? (fun f => f.1 == k)).map (fun f => f.2))
  | _, _ => .ok none

/-- Truthiness of a possibly-`undefined` member. -/
def optTruthy : Option JValue → Bool
  | none => false
  | some v => jsTruthy v

/-- `Storage.loadTasks` (task-board file): parse with `[]` as the
fallback and no shape check of its own. -/
def Storage.loadTasks (cell : Option String) : JValue :=
  safelyParseJson (getItemText cell) (.jarr [])

/-- The array coercion `App.init` applies right after `Storage.loadTasks`:
`if (!Array.isArray(this.tasks)) this.tasks = [];`. -/
def appInitTasks (cell : Option String) : JValue :=
  let t := Storage.loadTasks cell
  if isArray t then t else .jarr []

/-- `Storage.loadSubjects`: parse, then keep the value only if it is an
array. -/
def Storage.loadSubjects (cell : Option String) : JValue :=
  let s := safelyParseJson (getItemText cell) (.jarr [])
  if isArray s then s else .jarr []

/-- `Storage.loadSubjectColors`: parse, then keep the value only if it
passes `m && typeof m === 'object'`. -/
def Storage.loadSubjectColors (cell : Option String) : JValue :=
  let m := safelyParseJson (getItemText cell) (.jobj [])
  if jsTruthy m && typeofObject m then m else .jobj []

/-- `Chat.load`: parse with `[]` as the fallback, then coerce non-arrays
to `[]`; the result is the in-memory message list. -/
def chatLoadMessages (cell : Option String) : List JValue :=
  let m := safelyParseJson (getItemText cell) (.jarr [])
  match m with
  | .jarr xs => xs
  | _ => []

/-- `list.filter(t => !t.completed)` over parsed JSON tasks, with the
TypeError a `t.completed` access on a null element would raise. -/
def filterActive : List JValue → Except Unit (List JValue)
  | [] => .ok []
  | t :: ts => do
    let c ← jsMember t "completed"
    let rest ← filterActive ts
    if optTruthy c then pure rest else pure (t :: rest)

/-- `loadTasks` from `calendar.js`: parse, coerce non-arrays to `[]`,
then drop completed tasks. -/
def calendarLoadTasks (cell : Option String) : Except Unit (List JValue) :=
  let tasks := safelyParseJson (getItemText cell) (.jarr [])
  match tasks with
  | .jarr xs => filterActive xs
  | _ => .ok []

/-! ## Claim C1 -/

/-- C1, counterexample.  The claim says loading the tasks key yields the
documented fallback (the empty array) whenever the entry is absent or of
unexpected shape.  The task board's `Storage.loadTasks` has no shape
check: stored text "5" parses to the number 5 and is returned as-is, and
an absent entry parses (via the `getItem` null coercion) to JSON null
and is returned as-is — neither is the empty-array fallback. -/
theorem C1_loadTasks_counterexample :
    Storage.loadTasks (some "5") = JValue.jnum 5 ∧
    Storage.loadTasks none = JValue.jnull ∧
    JValue.jnum 5 ≠ JValue.jarr [] ∧ JValue.jnull ≠ JValue.jarr [] := by
  refine ⟨rfl, rfl, ?_, ?_⟩ <;> intro h <;> exact JValue.noConfusion h

/-- C1, amended.  The loaders that carry a shape check — `loadSubjects`,
`loadSubjectColors`, `Chat.load`, and the calendar's `loadTasks` — return
the stored value when it parses to the expected shape and never return
mis-shaped data, substituting the documented fallback on absent, corrupt
or mis-shaped entries (for the colors key, any JS non-null `object`,
arrays included, passes the check); the board's `Storage.loadTasks`
returns whatever the text parses to, substituting its fallback only when
parsing throws, and the array coercion for the board happens immediately
afterwards in `App.init`.  The calendar loader yields `[]` (rather than
throwing) on corrupt or non-array data; its completed-filter is the one
place a member access could still throw, on an array containing null. -/
theorem C1_load_contracts :
    (∀ cell xs, jsonParse (getItemText cell) = some (.jarr xs) →
      Storage.loadSubjects cell = .jarr xs ∧ chatLoadMessages cell = xs ∧
      calendarLoadTasks cell = filterActive xs) ∧
    (∀ cell, (∀ xs, jsonParse (getItemText cell) ≠ some (.jarr xs)) →
      Storage.loadSubjects cell = .jarr [] ∧ chatLoadMessages cell = [] ∧
      calendarLoadTasks cell = .ok []) ∧
    (∀ cell, jsTruthy (safelyParseJson (getItemText cell) (.jobj [])) = false ∨
        typeofObject (safelyParseJson (getItemText cell) (.jobj [])) = false →
      Storage.loadSubjectColors cell = .jobj []) ∧
    (∀ cell, typeofObject (Storage.loadSubjectColors cell) = true ∧
      Storage.loadSubjectColors cell ≠ .jnull) ∧
    (∀ cell, jsonParse (getItemText cell) = none → Storage.loadTasks cell = .jarr []) ∧
    (∀ cell v, jsonParse (getItemText cell) = some v → Storage.loadTasks cell = v) ∧
    (∀ cell, isArray (appInitTasks cell) = true) := by
  refine ⟨?_, ?_, ?_, ?_, ?_, ?_, ?_⟩
  · intro cell xs h
    simp [Storage.loadSubjects, chatLoadMessages, calendarLoadTasks,
      safelyParseJson, h, isArray]
  · intro cell h
    rcases hp : jsonParse (getItemText cell) with _ | v
    · simp [Storage.loadSubjects, chatLoadMessages, calendarLoadTasks,
        safelyParseJson, hp, isArray, filterActive]
    · cases v with
      | jarr xs => exact absurd hp (h xs)
      | jnull =>
        simp [Storage.loadSubjects, chatLoadMessages, calendarLoadTasks,
          safelyParseJson, hp, isArray]
      | jbool b =>
        simp [Storage.loadSubjects, chatLoadMessages, calendarLoadTasks,
          safelyParseJson, hp, isArray]
      | jnum n =>
        simp [Storage.loadSubjects, chatLoadMessages, calendarLoadTasks,
          safelyParseJson, hp, isArray]
      | jstr s =>
        simp [Storage.loadSubjects, chatLoadMessages, calendarLoadTasks,
          safelyParseJson, hp, isArray]
      | jobj fs =>
        simp [Storage.loadSubjects, chatLoadMessages, calendarLoadTasks,
          safelyParseJson, hp, isArray]
  · intro cell h
    rcases h with h | h <;> simp [Storage.loadSubjectColors, h]
  · intro cell
    rw [Storage.loadSubjectColors]
    rcases hm : safelyParseJson (getItemText cell) (.jobj []) with _ | b | n | s | xs | fs
      <;> simp [jsTruthy, typeofObject]
  · intro cell h
    simp [Storage.loadTasks, safelyParseJson, h]
  · intro cell v h
    simp [Storage.loadTasks, safelyParseJson, h]
  · intro cell
    rw [appInitTasks]
    rcases ht : Storage.loadTasks cell with _ | b | n | s | xs | fs <;> simp [isArray]

/-- C1, witness: the amended contracts applied at concrete cells — a
well-shaped subjects entry, a mis-shaped (string) entry, corrupt text in
the tasks key, and a numeric calendar entry. -/
theorem C1_load_contracts_witness :
    Storage.loadSubjects (some "[5]") = .jarr [.jnum 5] ∧
    Storage.loadSubjects (some "\"x\"") = .jarr [] ∧
    Storage.loadTasks (some "not json") = .jarr [] ∧
    Storage.loadTasks (some "[null]") = .jarr [.jnull] := by
  refine ⟨(C1_load_contracts.1 (some "[5]") [.jnum 5] (by decide)).1,
    (C1_load_contracts.2.1 (some "\"x\"") ?_).1,
    C1_load_contracts.2.2.2.2.1 (some "not json") (by decide),
    C1_load_contracts.2.2.2.2.2.1 (some "[null]") (.jarr [.jnull]) (by decide)⟩
  intro xs h
  rw [show jsonParse (getItemText (some "\"x\"")) = some (.jstr "x") from by decide] at h
  exact JValue.noConfusion (Option.some.inj h)

/-! ## Claim C7 -/

/-- C7: saving any of the four stored collections through the
persistence layer and loading it back yields the original value: the
tasks loader inverts `save` on every JSON value, the subjects and chat
loaders on every array, and the colors loader on every object. -/
theorem C7_save_load_roundtrip :
    (∀ v : JValue, Storage.loadTasks (storageSave v) = v) ∧
    (∀ xs, Storage.loadSubjects (storageSave (.jarr xs)) = .jarr xs) ∧
    (∀ fs, Storage.loadSubjectColors (storageSave (.jobj fs)) = .jobj fs) ∧
    (∀ msgs, chatLoadMessages (storageSave (.jarr msgs)) = msgs) := by
  have hload : ∀ v : JValue, safelyParseJson (getItemText (storageSave v)) (.jarr []) = v :=
    fun v => by simp [safelyParseJson, getItemText, storageSave, jsonParse_stringify]
  refine ⟨fun v => hload v, fun xs => ?_, fun fs => ?_, fun msgs => ?_⟩
  · rw [Storage.loadSubjects, hload (.jarr xs)]
    rfl
  · rw [Storage.loadSubjectColors]
    rw [show safelyParseJson (getItemText (storageSave (.jobj fs))) (.jobj [])
        = .jobj fs from by
      simp [safelyParseJson, getItemText, storageSave, jsonParse_stringify]]
    rfl
  · rw [chatLoadMessages, hload (.jarr msgs)]

/-! ## Stable sorting

JS `Array.prototype.sort` is stable (ES2019).  A stable sort is fully
determined by its key: the model below is insertion sort placing each
element before the first existing element with a key not smaller, which
keeps equal-key elements in input order. -/

/-- Insert `a` before the first element whose key is not smaller. -/
def insertOn {α β : Type} [LinearOrder β] (key : α → β) (a : α) : List α → List α
  | [] => [a]
  | b :: bs => if key a ≤ key b then a :: b :: bs else b :: insertOn key a bs

/-- Stable sort by key. -/
def sortOn {α β : Type} [LinearOrder β] (key : α → β) : List α → List α
  | [] => []
  | a :: as => insertOn key a (sortOn key as)

theorem insertOn_perm {α β : Type} [LinearOrder β] (key : α → β) (a : α) (l : List α) :
    List.Perm (insertOn key a l) (a :: l) := by
  induction l with
  | nil => rfl
  | cons b bs ih =>
    rw [insertOn]
    split_ifs with h
    · rfl
    · exact List.Perm.trans (List.Perm.cons b ih) (List.Perm.swap a b bs)

theorem sortOn_perm {α β : Type} [LinearOrder β] (key : α → β) (l : List α) :
    List.Perm (sortOn key l) l := by
  induction l with
  | nil => rfl
  | cons a as ih =>
    exact List.Perm.trans (insertOn_perm key a (sortOn key as)) (List.Perm.cons a ih)

theorem mem_sortOn {α β : Type} [LinearOrder β] {key : α → β} {x : α} {l : List α} :
    x ∈ sortOn key l ↔ x ∈ l :=
  (sortOn_perm key l).mem_iff

theorem insertOn_sorted {α β : Type} [LinearOrder β] (key : α → β) (a : α) {l : List α}
    (h : l.Sorted (fun x y => key x ≤ key y)) :
    (insertOn key a l).Sorted (fun x y => key x ≤ key y) := by
  induction l with
  | nil => simp [insertOn]
  | cons b bs ih =>
    rw [List.sorted_cons] at h
    rw [insertOn]
    split_ifs with hab
    · rw [List.sorted_cons]
      refine ⟨?_, List.sorted_cons.mpr h⟩
      intro z hz
      rcases List.mem_cons.mp hz with rfl | hz
      · exact hab
      · exact le_trans hab (h.1 z hz)
    · rw [List.sorted_cons]
      refine ⟨?_, ih h.2⟩
      intro z hz
      rcases List.mem_cons.mp ((insertOn_perm key a bs).mem_iff.mp hz) with rfl | hz
      · exact le_of_not_le hab
      · exact h.1 z hz

theorem sortOn_sorted {α β : Type} [LinearOrder β] (key : α → β) (l : List α) :
    (sortOn key l).Sorted (fun x y => key x ≤ key y) := by
  induction l with
  | nil => simp [sortOn]
  | cons a as ih => exact insertOn_sorted key a ih

theorem insertOn_filter_key {α β : Type} [LinearOrder β] (key : α → β) (r : β) (a : α)
    (l : List α) :
    (insertOn key a l).filter (fun x => decide (key x = r))
      = (a :: l).filter (fun x => decide (key x = r)) := by
  induction l with
  | nil => rfl
  | cons b bs ih =>
    rw [insertOn]
    split_ifs with hab
    · rfl
    · by_cases har : key a = r
      · have hbr : ¬ key b = r := fun hbr => hab (le_of_eq (har.trans hbr.symm))
        simp [List.filter_cons, har, hbr, ih]
      · simp [List.filter_cons, har, ih]

/-- Stability: within each key class, `sortOn` preserves input order. -/
theorem sortOn_filter_key {α β : Type} [LinearOrder β] (key : α → β) (r : β) (l : List α) :
    (sortOn key l).filter (fun x => decide (key x = r))
      = l.filter (fun x => decide (key x = r)) := by
  induction l with
  | nil => rfl
  | cons a as ih =>
    rw [sortOn, insertOn_filter_key, List.filter_cons, List.filter_cons, ih]

/-! ## Tasks (the structured view of stored task objects) -/

structure Task where
  id : String
  name : String
  subject : String
  dueDate : Option String
  priority : Option String
  completed : Bool
  createdAt : String
deriving Repr, DecidableEq

/-- JS truthiness of an optional string field (`undefined` and the empty
string are falsy). -/
def strTruthy : Option String → Bool
  | none => false
  | some s => decide (s ≠ "")

/-- `pri[t.priority || 'medium']`, the rank table of the two calendar
sort comparators: `none` for a string outside the table, where the JS
comparator would return NaN and the sort order is unspecified. -/
def priRank (p : Option String) : Option Nat :=
  let eff := match p with
    | none => "medium"
    | some s => if s = "" then "medium" else s
  if eff = "high" then some 0
  else if eff = "medium" then some 1
  else if eff = "low" then some 2
  else none

/-- Total rank used by the sort model; agrees with `priRank` wherever
the rank is defined. -/
def rankD (p : Option String) : Nat := (priRank p).getD 1

/-- The priority sort applied to a day cell's chips and to the day
modal's list. -/
def sortByPriority (l : List Task) : List Task :=
  sortOn (fun t => rankD t.priority) l

/-! ## Calendar month rendering -/

/-- JS `Date` two-digit-year rule: constructor years 0 to 99 mean
1900 to 1999. -/
def jsYearAdjust (y : Int) : Int := if 0 ≤ y ∧ y ≤ 99 then y + 1900 else y

/-- Gregorian leap year. -/
def isLeap (y : Int) : Bool := (y % 4 == 0 && y % 100 != 0) || (y % 400 == 0)

/-- `getDaysInMonth(year, monthIndex)` via the day-0-of-next-month
trick: the Gregorian month length. -/
def daysInMonth (y : Int) (mIndex : Nat) : Nat :=
  if mIndex = 1 then (if isLeap (jsYearAdjust y) then 29 else 28)
  else if mIndex = 3 ∨ mIndex = 5 ∨ mIndex = 8 ∨ mIndex = 10 then 30
  else 31

/-- `String(n).padStart(2, '0')`. -/
def padStart2 (s : String) : String :=
  String.mk (List.replicate (2 - s.length) (Char.ofNat 48) ++ s.data)

/-- `formatLocalISO(new Date(year, monthIndex, day))` for a day of a
displayed month (monthIndex 0 to 11 and a day within the month, so the
constructor normalizes nothing beyond the two-digit-year rule). -/
def isoOf (y : Int) (mIndex : Nat) (day : Nat) : String :=
  intToStr (jsYearAdjust y) ++ "-" ++ padStart2 (natToStr (mIndex + 1)) ++ "-"
    ++ padStart2 (natToStr day)

/-- One rendered calendar day cell. -/
structure DayCell where
  day : Nat
  iso : String
  chips : List Task
deriving Repr, DecidableEq

/-- `groupTasksByDate(tasks).get(key) || []`: the `Map` preserves
insertion order, so the bucket is the in-order sublist of tasks due
`key`; tasks with a falsy `dueDate` are skipped. -/
def bucket (tasks : List Task) (key : String) : List Task :=
  tasks.filter (fun t => strTruthy t.dueDate && t.dueDate == some key)

/-- `renderMonth`'s day cells: one cell per day 1..daysInMonth, chips
bucketed by the cell's ISO date and sorted by priority. -/
def renderMonthCells (y : Int) (mIndex : Nat) (tasks : List Task) : List DayCell :=
  (List.range' 1 (daysInMonth y mIndex)).map (fun day =>
    { day := day, iso := isoOf y mIndex day,
      chips := sortByPriority (bucket tasks (isoOf y mIndex day)) })

/-- The calendar pipeline: `loadTasks` drops completed tasks, then
`renderMonth` builds the cells. -/
def calendarCells (y : Int) (mIndex : Nat) (tasks : List Task) : List DayCell :=
  renderMonthCells y mIndex (tasks.filter (fun t => !t.completed))

/-- `openDayModal`'s listing for a date: the same bucket, sorted the
same way. -/
def dayModalList (tasks : List Task) (iso : String) : List Task :=
  sortByPriority (bucket (tasks.filter (fun t => !t.completed)) iso)

theorem digitsVal_zeros (k : Nat) (l : List Char) :
    digitsVal (List.replicate k (Char.ofNat 48) ++ l) = digitsVal l := by
  induction k with
  | zero => rfl
  | succ k ih =>
    rw [List.replicate_succ, List.cons_append]
    show (List.replicate k (Char.ofNat 48) ++ l).foldl
        (fun a c => a * 10 + (c.toNat - 48)) (0 * 10 + ((Char.ofNat 48).toNat - 48)) = _
    exact ih

theorem digitsVal_padStart2 (n : Nat) : digitsVal (padStart2 (natToStr n)).data = n := by
  show digitsVal (List.replicate (2 - (natToStr n).length) (Char.ofNat 48)
    ++ (natToChars n)) = n
  rw [digitsVal_zeros, digitsVal_natToChars]

theorem isoOf_day_inj (y : Int) (mIndex : Nat) {d₁ d₂ : Nat}
    (h : isoOf y mIndex d₁ = isoOf y mIndex d₂) : d₁ = d₂ := by
  have hd := congrArg String.data h
  simp only [isoOf, String.data_append] at hd
  have := List.append_cancel_left hd
  have := congrArg digitsVal this
  rwa [digitsVal_padStart2, digitsVal_padStart2] at this

theorem padStart2_data (s : String) :
    (padStart2 s).data = List.replicate (2 - s.length) (Char.ofNat 48) ++ s.data := rfl

theorem isoOf_ne_empty (y : Int) (mIndex : Nat) (day : Nat) :
    isoOf y mIndex day ≠ "" := by
  intro h
  have hd := congrArg String.data h
  simp only [isoOf, String.data_append] at hd
  have hlen := congrArg List.length hd
  simp only [List.length_append, List.length_cons, List.length_nil] at hlen
  omega

/-! ## Claim C3 -/

/-- C3: in the rendered month (monthIndex 0 to 11), every chip in a day
cell is a non-completed task whose `dueDate` equals that cell's date;
every non-completed task whose `dueDate` is the canonical `YYYY-MM-DD`
string of a day of the displayed month appears in exactly one day cell;
and completed tasks, and tasks without a truthy `dueDate`, appear in no
cell. -/
theorem C3_calendar_bucketing (y : Int) (mIndex : Nat) (tasks : List Task)
    (hm : mIndex < 12) :
    (∀ cell ∈ calendarCells y mIndex tasks, ∀ t ∈ cell.chips,
      t.dueDate = some cell.iso ∧ t.completed = false) ∧
    (∀ t ∈ tasks, t.completed = false →
      ∀ day, 1 ≤ day → day ≤ daysInMonth y mIndex →
        t.dueDate = some (isoOf y mIndex day) →
        (calendarCells y mIndex tasks).countP (fun c => decide (t ∈ c.chips)) = 1) ∧
    (∀ t, (t.completed = true ∨ t.dueDate = none ∨ t.dueDate = some "") →
      ∀ cell ∈ calendarCells y mIndex tasks, t ∉ cell.chips) := by
  refine ⟨?_, ?_, ?_⟩
  · intro cell hcell t ht
    simp only [calendarCells, renderMonthCells, List.mem_map] at hcell
    obtain ⟨day, hday, rfl⟩ := hcell
    have hb : t ∈ bucket (tasks.filter (fun t => !t.completed)) (isoOf y mIndex day) :=
      mem_sortOn.mp ht
    rw [bucket, List.mem_filter, List.mem_filter] at hb
    obtain ⟨⟨_, hcomp⟩, hdue⟩ := hb
    rw [Bool.and_eq_true, beq_iff_eq] at hdue
    refine ⟨hdue.2, by simpa using hcomp⟩
  · intro t ht hcomp day h1 h2 hdue
    rw [calendarCells, renderMonthCells, List.countP_map]
    have hpt : ∀ d ∈ List.range' 1 (daysInMonth y mIndex),
        (decide (t ∈ sortByPriority
          (bucket (tasks.filter (fun u => !u.completed)) (isoOf y mIndex d))) = true)
          ↔ ((d == day) = true) := by
      intro d hd
      rw [decide_eq_true_eq, beq_iff_eq]
      rw [show (t ∈ sortByPriority
          (bucket (tasks.filter (fun u => !u.completed)) (isoOf y mIndex d)))
          ↔ t ∈ bucket (tasks.filter (fun u => !u.completed)) (isoOf y mIndex d)
        from mem_sortOn]
      rw [bucket, List.mem_filter]
      constructor
      · rintro ⟨_, hp⟩
        rw [Bool.and_eq_true, beq_iff_eq, hdue] at hp
        exact (isoOf_day_inj y mIndex (Option.some.inj hp.2)).symm
      · rintro rfl
        refine ⟨List.mem_filter.mpr ⟨ht, by simp [hcomp]⟩, ?_⟩
        rw [Bool.and_eq_true, beq_iff_eq, hdue]
        refine ⟨?_, rfl⟩
        simp only [hdue, strTruthy, decide_eq_true_eq]
        exact isoOf_ne_empty y mIndex d
    show List.countP (fun d => decide (t ∈ sortByPriority
        (bucket (tasks.filter (fun u => !u.completed)) (isoOf y mIndex d))))
      (List.range' 1 (daysInMonth y mIndex)) = 1
    rw [List.countP_congr hpt]
    have : List.countP (fun d => d == day) (List.range' 1 (daysInMonth y mIndex))
        = List.count day (List.range' 1 (daysInMonth y mIndex)) := rfl
    rw [this]
    exact List.count_eq_one_of_mem (List.nodup_range' 1 (daysInMonth y mIndex))
      (List.mem_range'.mpr ⟨day - 1, by omega, by omega⟩)
  · intro t hex cell hcell htc
    simp only [calendarCells, renderMonthCells, List.mem_map] at hcell
    obtain ⟨day, hday, rfl⟩ := hcell
    have hb := mem_sortOn.mp htc
    rw [bucket, List.mem_filter, List.mem_filter] at hb
    obtain ⟨⟨_, hcomp⟩, hdue⟩ := hb
    rw [Bool.and_eq_true] at hdue
    rcases hex with hex | hex | hex
    · simp [hex] at hcomp
    · rw [hex] at hdue
      simp [strTruthy] at hdue
    · rw [hex] at hdue
      simp [strTruthy] at hdue

/-- C3, witness at a concrete month and task list: January 2024 with a
single pending task due 2024-01-05 appears in exactly one cell. -/
theorem C3_calendar_bucketing_witness :
    let t : Task :=
      { id := "1", name := "Essay", subject := "English",
        dueDate := some "2024-01-05", priority := some "high", completed := false,
        createdAt := "c" }
    (0 : Nat) < 12 ∧
    (calendarCells 2024 0 [t]).countP (fun c => decide (t ∈ c.chips)) = 1 := by
  intro t
  refine ⟨by decide, ?_⟩
  have h := (C3_calendar_bucketing 2024 0 [t] (by decide)).2.1
  exact h t (by simp) rfl 5 (by decide) (by decide) (by decide)

/-! ## Claim C4 -/

/-- `UI.renderSubjects`' per-subject task list:
`tasks.filter(t => t.subject === subject && !t.completed)` — storage
order, with no sort of any kind. -/
def boardSubjectTasks (subject : String) (tasks : List Task) : List Task :=
  tasks.filter (fun t => t.subject == subject && !t.completed)

/-- C4, counterexample.  The claim says the task board also orders a
day's tasks high-before-medium-before-low; the board renders tasks in
storage order with no priority sort, so a low-priority task stored
before a high-priority one (same subject, same due date) stays first. -/
theorem C4_board_counterexample :
    let tLow : Task :=
      { id := "1", name := "a", subject := "Math", dueDate := some "2024-01-05",
        priority := some "low", completed := false, createdAt := "c" }
    let tHigh : Task :=
      { id := "2", name := "b", subject := "Math", dueDate := some "2024-01-05",
        priority := some "high", completed := false, createdAt := "c" }
    boardSubjectTasks "Math" [tLow, tHigh] = [tLow, tHigh] ∧
    ¬ (boardSubjectTasks "Math" [tLow, tHigh]).Sorted
        (fun a b => rankD a.priority ≤ rankD b.priority) := by
  intro tLow tHigh
  refine ⟨by decide, ?_⟩
  intro h
  rw [show boardSubjectTasks "Math" [tLow, tHigh] = [tLow, tHigh] from by decide] at h
  have := (List.sorted_cons.mp h).1 tHigh (by simp)
  revert this
  decide

/-- C4, amended: the calendar day cells and the day modal order a day's
tasks by priority rank (high 0, medium 1, low 2; a missing or empty
priority ranks as medium) with equal-rank tasks in storage order, while
the task board keeps plain storage order (its list is a sublist of the
stored list).  The hypothesis restricts to priorities the comparator's
rank table defines; on unknown strings the JS comparator returns NaN and
the sort order is unspecified. -/
theorem C4_priority_order (tasks : List Task) (y : Int) (mIndex : Nat) (iso : String)
    (subject : String)
    (hvalid : ∀ t ∈ tasks, (priRank t.priority).isSome = true) :
    (∀ cell ∈ calendarCells y mIndex tasks,
      cell.chips.Sorted (fun a b => rankD a.priority ≤ rankD b.priority) ∧
      ∀ r, cell.chips.filter (fun t => decide (rankD t.priority = r))
        = (bucket (tasks.filter (fun t => !t.completed)) cell.iso).filter
            (fun t => decide (rankD t.priority = r))) ∧
    ((dayModalList tasks iso).Sorted (fun a b => rankD a.priority ≤ rankD b.priority) ∧
      ∀ r, (dayModalList tasks iso).filter (fun t => decide (rankD t.priority = r))
        = (bucket (tasks.filter (fun t => !t.completed)) iso).filter
            (fun t => decide (rankD t.priority = r))) ∧
    List.Sublist (boardSubjectTasks subject tasks) tasks := by
  refine ⟨?_, ⟨sortOn_sorted _ _, fun r => sortOn_filter_key _ r _⟩,
    List.filter_sublist _⟩
  intro cell hcell
  simp only [calendarCells, renderMonthCells, List.mem_map] at hcell
  obtain ⟨day, hday, rfl⟩ := hcell
  exact ⟨sortOn_sorted _ _, fun r => sortOn_filter_key _ r _⟩

/-- C4, witness: the amended ordering applied to a concrete two-task
day (the day modal of 2024-01-05). -/
theorem C4_priority_order_witness :
    let tLow : Task :=
      { id := "1", name := "a", subject := "Math", dueDate := some "2024-01-05",
        priority := some "low", completed := false, createdAt := "c" }
    let tHigh : Task :=
      { id := "2", name := "b", subject := "Math", dueDate := some "2024-01-05",
        priority := some "high", completed := false, createdAt := "c" }
    (∀ t ∈ [tLow, tHigh], (priRank t.priority).isSome = true) ∧
    (dayModalList [tLow, tHigh] "2024-01-05").Sorted
      (fun a b => rankD a.priority ≤ rankD b.priority) := by
  intro tLow tHigh
  refine ⟨by decide, ?_⟩
  exact (C4_priority_order [tLow, tHigh] 2024 0 "2024-01-05" "Math"
    (by decide)).2.1.1

/-! ## Claim C5 -/

/-- JS `String.prototype.trim` (the ASCII whitespace; exotic Unicode
space characters are outside the model). -/
def isJsSpace (c : Char) : Bool :=
  c.toNat = 32 || c.toNat = 9 || c.toNat = 10 || c.toNat = 11 ||
    c.toNat = 12 || c.toNat = 13

/-- JS `input.trim()`. -/
def jsTrim (s : String) : String :=
  String.mk (((s.data.dropWhile isJsSpace).reverse.dropWhile isJsSpace).reverse)

/-- `App.onAddSubject`'s effect on the subject list: a cancelled prompt
or blank name changes nothing, an existing name (exact case-sensitive
match) is rejected, otherwise the name is pushed and the whole list
re-sorted (`localeCompare`, modelled as the code-point string order). -/
def addSubjectOp (subjects : List String) (input : String) : List String :=
  if input = "" then subjects
  else if jsTrim input = "" then subjects
  else if subjects.contains (jsTrim input) then subjects
  else sortOn (fun s => s) (subjects ++ [jsTrim input])

/-- `App.deleteSubject`'s effect on the subject list (once confirmed):
`subjects.filter(s => s !== subject)`. -/
def deleteSubjectOp (subjects : List String) (subject : String) : List String :=
  subjects.filter (fun s => s != subject)

/-- One confirmed user operation on the subject list (a cancelled
prompt or confirm dialog leaves the list untouched). -/
inductive SubjectOp where
  | add (input : String)
  | del (name : String)
deriving Repr

/-- Apply one operation. -/
def applySubjectOp (subjects : List String) : SubjectOp → List String
  | .add input => addSubjectOp subjects input
  | .del name => deleteSubjectOp subjects name

/-- Run a sequence of add/delete operations. -/
def runSubjectOps (s₀ : List String) (ops : List SubjectOp) : List String :=
  ops.foldl applySubjectOp s₀

/-- The C5 invariant: sorted lexicographically and duplicate-free. -/
def subjectsInvariant (l : List String) : Prop :=
  l.Sorted (· ≤ ·) ∧ l.Nodup

theorem applySubjectOp_invariant (s : List String) (op : SubjectOp)
    (h : subjectsInvariant s) : subjectsInvariant (applySubjectOp s op) := by
  obtain ⟨hs, hn⟩ := h
  cases op with
  | add input =>
    rw [applySubjectOp, addSubjectOp]
    split_ifs with h1 h2 h3
    · exact ⟨hs, hn⟩
    · exact ⟨hs, hn⟩
    · exact ⟨hs, hn⟩
    · constructor
      · have := sortOn_sorted (fun s : String => s) (s ++ [jsTrim input])
        simpa using this
      · rw [(sortOn_perm (fun s : String => s) (s ++ [jsTrim input])).nodup_iff]
        have hmem : jsTrim input ∉ s := by simpa using h3
        simp [List.nodup_append, hn, hmem]
  | del name =>
    rw [applySubjectOp, deleteSubjectOp]
    exact ⟨List.Pairwise.sublist (List.filter_sublist s) hs, hn.filter _⟩

/-- C5: starting from a sorted duplicate-free subject list, any sequence
of add-subject and delete-subject operations leaves the stored list
sorted and duplicate-free (duplicates rejected by exact string match). -/
theorem C5_subjects_invariant (ops : List SubjectOp) (s₀ : List String)
    (h : subjectsInvariant s₀) : subjectsInvariant (runSubjectOps s₀ ops) := by
  induction ops generalizing s₀ with
  | nil => exact h
  | cons op ops ih =>
    rw [runSubjectOps, List.foldl_cons]
    exact ih _ (applySubjectOp_invariant s₀ op h)

/-- C5, witness: the invariant holds after a concrete operation
sequence starting from the empty list. -/
theorem C5_subjects_invariant_witness :
    subjectsInvariant ([] : List String) ∧
    subjectsInvariant (runSubjectOps []
      [.add "Maths", .add "Biology", .del "Maths", .add "Art"]) := by
  have h0 : subjectsInvariant ([] : List String) := by
    constructor
    · exact List.sorted_nil
    · exact List.nodup_nil
  exact ⟨h0, C5_subjects_invariant [.add "Maths", .add "Biology", .del "Maths",
    .add "Art"] [] h0⟩

/-! ## Claim C2 -/

/-- One submission of the add-task form: the raw field values plus the
two clock readings the handler makes (`Date.now()` and
`new Date().toISOString()`). -/
structure AddReq where
  now : Nat
  createdAt : String
  name : String
  subject : String
  dueDate : String
  priority : String
deriving Repr, DecidableEq

/-- `App.onSubmit`'s effect on the task list: validate the trimmed
fields (empty priority falls back to "medium"), and on success append a
task with `id = Date.now().toString()`. -/
def onSubmitOp (tasks : List Task) (r : AddReq) : List Task :=
  if jsTrim r.name = "" ∨ jsTrim r.subject = "" ∨ r.dueDate = "" then tasks
  else
    tasks ++
      [{ id := natToStr r.now, name := jsTrim r.name,
         subject := jsTrim r.subject, dueDate := some r.dueDate,
         priority := some (if r.priority = "" then "medium" else r.priority),
         completed := false, createdAt := r.createdAt }]

/-- A sequence of add-task submissions. -/
def runAdds (tasks : List Task) (reqs : List AddReq) : List Task :=
  reqs.foldl onSubmitOp tasks

/-- C2, counterexample.  Ids are `Date.now().toString()`: two distinct
Add-task operations in the same millisecond generate the same id, so the
stored list's ids are not pairwise distinct. -/
theorem C2_id_collision :
    let r1 : AddReq :=
      { now := 1000, createdAt := "t1", name := "Essay", subject := "English",
        dueDate := "2024-01-02", priority := "high" }
    let r2 : AddReq :=
      { now := 1000, createdAt := "t2", name := "Quiz", subject := "Math",
        dueDate := "2024-01-03", priority := "low" }
    (runAdds [] [r1, r2]).map Task.id = ["1000", "1000"] ∧
    ¬ (["1000", "1000"] : List String).Nodup := by
  intro r1 r2
  exact ⟨by decide, by simp⟩

theorem runAdds_ids_nodup (reqs : List AddReq) (st : List Task)
    (h1 : (st.map Task.id).Nodup)
    (h2 : ∀ t ∈ st, ∀ r ∈ reqs, t.id ≠ natToStr r.now)
    (h3 : (reqs.map AddReq.now).Nodup) :
    ((runAdds st reqs).map Task.id).Nodup := by
  induction reqs generalizing st with
  | nil => exact h1
  | cons r rs ih =>
    rw [runAdds, List.foldl_cons]
    rw [List.map_cons, List.nodup_cons] at h3
    refine ih (onSubmitOp st r) ?_ ?_ h3.2
    · by_cases hv : jsTrim r.name = "" ∨ jsTrim r.subject = "" ∨ r.dueDate = ""
      · rw [onSubmitOp, if_pos hv]
        exact h1
      · rw [onSubmitOp, if_neg hv]
        rw [List.map_append, List.map_cons, List.map_nil, List.nodup_append]
        refine ⟨h1, List.nodup_singleton _, ?_⟩
        intro x hx hx1
        rw [List.mem_map] at hx
        obtain ⟨t, ht, rfl⟩ := hx
        rw [List.mem_singleton] at hx1
        exact h2 t ht r (List.mem_cons_self r rs) hx1
    · intro t ht r' hr'
      by_cases hv : jsTrim r.name = "" ∨ jsTrim r.subject = "" ∨ r.dueDate = ""
      · rw [onSubmitOp, if_pos hv] at ht
        exact h2 t ht r' (List.mem_cons_of_mem r hr')
      · rw [onSubmitOp, if_neg hv] at ht
        rw [List.mem_append, List.mem_singleton] at ht
        rcases ht with ht | rfl
        · exact h2 t ht r' (List.mem_cons_of_mem r hr')
        · intro he
          have : r.now = r'.now := natToStr_injective he
          exact h3.1 (this ▸ List.mem_map_of_mem AddReq.now hr')

/-- C2, amended: the time-based ids are distinct exactly as far as the
creation timestamps are — a run of Add-task operations whose `Date.now()`
readings are pairwise distinct yields a stored list with pairwise
distinct ids (and the counterexample shows equal readings collide). -/
theorem C2_distinct_times_distinct_ids (reqs : List AddReq)
    (h : (reqs.map AddReq.now).Nodup) :
    ((runAdds [] reqs).map Task.id).Nodup :=
  runAdds_ids_nodup reqs [] (by simp) (by simp) h

/-- C2, witness: two adds one millisecond apart give distinct ids. -/
theorem C2_distinct_times_distinct_ids_witness :
    let r1 : AddReq :=
      { now := 1000, createdAt := "t1", name := "Essay", subject := "English",
        dueDate := "2024-01-02", priority := "high" }
    let r2 : AddReq :=
      { now := 1001, createdAt := "t2", name := "Quiz", subject := "Math",
        dueDate := "2024-01-03", priority := "low" }
    (([r1, r2] : List AddReq).map AddReq.now).Nodup ∧
    ((runAdds [] [r1, r2]).map Task.id).Nodup := by
  intro r1 r2
  exact ⟨by simp, C2_distinct_times_distinct_ids [r1, r2] (by simp)⟩

/-! ## Claim C6: deterministic subject colors

`generateColorFor` hashes the seed string into a hue and converts a
pastel HSL color to a hex string.  JS floating point is modelled by
exact rational arithmetic; the format result below only needs the
channel values to stay inside 0..255, which is robust to rounding. -/

/-- UTF-16 code units of a string (`charCodeAt` iterates code units;
astral characters contribute a surrogate pair). -/
def utf16Units (s : String) : List Nat :=
  (s.data.map (fun c =>
    if c.toNat < 65536 then [c.toNat]
    else [55296 + (c.toNat - 65536) / 1024, 56320 + (c.toNat - 65536) % 1024])).flatten

/-- Wrap to a signed 32-bit integer in two's complement (`| 0`). -/
def toInt32 (z : Int) : Int := (z + 2 ^ 31) % 2 ^ 32 - 2 ^ 31

/-- One step of the hash loop `h = (h << 5) - h + c; h |= 0`; the shift
itself is already a 32-bit operation. -/
def hashStep (h : Int) (c : Nat) : Int := toInt32 (toInt32 (h * 32) - h + c)

/-- The seed hash of `generateColorFor`. -/
def jsHash (s : String) : Int := (utf16Units s).foldl hashStep 0

/-- The hue: `Math.abs(h) % 360`. -/
def hueOf (s : String) : Nat := (jsHash s).natAbs % 360

/-- JS `Math.abs` for the rational model. -/
def ratAbs (x : Rat) : Rat := if x < 0 then -x else x

/-- JS `Math.round`: the floor of `x + 1/2`. -/
def jsRound (x : Rat) : Int := Rat.floor (x + 1 / 2)

/-- Hexadecimal digit loop (`toString(16)`), most significant first. -/
def natHexFuel : Nat → Nat → List Char → List Char
  | 0, _, acc => acc
  | fuel + 1, n, acc =>
    if n = 0 then acc else natHexFuel fuel (n / 16) (hexDigitChar (n % 16) :: acc)

/-- JS `n.toString(16)` for a natural number. -/
def natHexChars (n : Nat) : List Char :=
  if n = 0 then [Char.ofNat 48] else natHexFuel (n + 1) n []

/-- The channel text `v.toString(16).padStart(2, '0')` for the rounded value. -/
def toHexPad2 (k : Int) : String :=
  padStart2 (String.mk
    (if k < 0 then Char.ofNat 45 :: natHexChars k.natAbs else natHexChars k.toNat))

/-- The source's `hslToHex(H, S, L)` with exact rationals for the JS floats. -/
def hslToHex (H : Nat) (S0 L0 : Rat) : String :=
  let S := S0 / 100
  let L := L0 / 100
  let C : Rat := (1 - ratAbs (2 * L - 1)) * S
  let Hmod2 : Rat := (H : Rat) / 60 - 2 * ((Rat.floor ((H : Rat) / 60 / 2) : Int) : Rat)
  let X : Rat := C * (1 - ratAbs (Hmod2 - 1))
  let m : Rat := L - C / 2
  let rgb : Rat × Rat × Rat :=
    if H < 60 then (C, X, 0)
    else if H < 120 then (X, C, 0)
    else if H < 180 then (0, C, X)
    else if H < 240 then (0, X, C)
    else if H < 300 then (X, 0, C)
    else (C, 0, X)
  "#" ++ toHexPad2 (jsRound ((rgb.1 + m) * 255)) ++
    toHexPad2 (jsRound ((rgb.2.1 + m) * 255)) ++
    toHexPad2 (jsRound ((rgb.2.2 + m) * 255))

/-- The color generator `App.generateColorFor(seed)`. -/
def generateColorFor (seed : String) : String := hslToHex (hueOf seed) 65 60

theorem jsRound_nonneg {w : Rat} (h : 0 ≤ w) : 0 ≤ jsRound w := by
  rw [jsRound]
  have : ((0 : Int) : Rat) ≤ w + 1 / 2 := by push_cast; linarith
  exact Rat.le_floor.mpr this

theorem jsRound_le_255 {w : Rat} (h : w ≤ 255) : jsRound w ≤ 255 := by
  rw [jsRound]
  by_contra hc
  push_neg at hc
  have : ((256 : Int) : Rat) ≤ w + 1 / 2 := Rat.le_floor.mp (by omega)
  push_cast at this
  linarith

theorem hexVal_isSome_hexDigitChar {d : Nat} (h : d < 16) :
    (hexVal (hexDigitChar d)).isSome = true := by
  rw [hexVal_hexDigitChar h]
  rfl

theorem natHexFuel_step (fuel n : Nat) (acc : List Char) (h : n ≠ 0) :
    natHexFuel (fuel + 1) n acc = natHexFuel fuel (n / 16) (hexDigitChar (n % 16) :: acc) := by
  simp only [natHexFuel, if_neg h]

theorem natHexFuel_zero (fuel : Nat) (acc : List Char) :
    natHexFuel fuel 0 acc = acc := by
  cases fuel <;> simp [natHexFuel]

theorem natHexChars_le255 (n : Nat) (h : n ≤ 255) :
    ((natHexChars n).length = 1 ∨ (natHexChars n).length = 2) ∧
    ∀ c ∈ natHexChars n, (hexVal c).isSome = true := by
  by_cases h0 : n = 0
  · subst h0
    exact ⟨Or.inl rfl, by decide⟩
  · rw [natHexChars, if_neg h0]
    obtain ⟨f, rfl⟩ : ∃ f, n = f + 1 := ⟨n - 1, by omega⟩
    rw [natHexFuel_step (f + 1) (f + 1) [] h0]
    by_cases h16 : (f + 1) / 16 = 0
    · rw [h16, natHexFuel_zero]
      refine ⟨Or.inl rfl, ?_⟩
      intro c hc
      rw [List.mem_singleton] at hc
      subst hc
      exact hexVal_isSome_hexDigitChar (Nat.mod_lt _ (by decide))
    · rw [natHexFuel_step f ((f + 1) / 16) _ h16]
      have h256 : (f + 1) / 16 / 16 = 0 := by omega
      rw [h256, natHexFuel_zero]
      refine ⟨Or.inr rfl, ?_⟩
      intro c hc
      simp only [List.mem_cons, List.not_mem_nil, or_false] at hc
      rcases hc with rfl | rfl
      · exact hexVal_isSome_hexDigitChar (Nat.mod_lt _ (by decide))
      · exact hexVal_isSome_hexDigitChar (Nat.mod_lt _ (by decide))

theorem toHexPad2_format (k : Int) (h0 : 0 ≤ k) (h255 : k ≤ 255) :
    (toHexPad2 k).data.length = 2 ∧
    ∀ c ∈ (toHexPad2 k).data, (hexVal c).isSome = true := by
  rw [toHexPad2, if_neg (by omega)]
  obtain ⟨hl, hc⟩ := natHexChars_le255 k.toNat (by omega)
  have hd : (padStart2 (String.mk (natHexChars k.toNat))).data
      = List.replicate (2 - (natHexChars k.toNat).length) (Char.ofNat 48)
          ++ natHexChars k.toNat := rfl
  constructor
  · rw [hd, List.length_append, List.length_replicate]
    omega
  · intro c hcm
    rw [hd, List.mem_append] at hcm
    rcases hcm with hcm | hcm
    · have := List.eq_of_mem_replicate hcm
      subst this
      decide
    · exact hc c hcm

theorem color_format (k₁ k₂ k₃ : Int)
    (h₁ : 0 ≤ k₁) (h₁' : k₁ ≤ 255) (h₂ : 0 ≤ k₂) (h₂' : k₂ ≤ 255)
    (h₃ : 0 ≤ k₃) (h₃' : k₃ ≤ 255) :
    ("#" ++ toHexPad2 k₁ ++ toHexPad2 k₂ ++ toHexPad2 k₃).length = 7 ∧
    ("#" ++ toHexPad2 k₁ ++ toHexPad2 k₂ ++ toHexPad2 k₃).data.head?
      = some (Char.ofNat 35) ∧
    ∀ c ∈ ("#" ++ toHexPad2 k₁ ++ toHexPad2 k₂ ++ toHexPad2 k₃).data.tail,
      (hexVal c).isSome = true := by
  obtain ⟨hl₁, hc₁⟩ := toHexPad2_format k₁ h₁ h₁'
  obtain ⟨hl₂, hc₂⟩ := toHexPad2_format k₂ h₂ h₂'
  obtain ⟨hl₃, hc₃⟩ := toHexPad2_format k₃ h₃ h₃'
  have hdata : ("#" ++ toHexPad2 k₁ ++ toHexPad2 k₂ ++ toHexPad2 k₃).data
      = Char.ofNat 35 :: ((toHexPad2 k₁).data ++ (toHexPad2 k₂).data
          ++ (toHexPad2 k₃).data) := by
    simp [String.data_append]
  refine ⟨?_, ?_, ?_⟩
  · show ("#" ++ toHexPad2 k₁ ++ toHexPad2 k₂ ++ toHexPad2 k₃).data.length = 7
    rw [hdata]
    simp [List.length_append, hl₁, hl₂, hl₃]
  · rw [hdata]
    rfl
  · intro c hcm
    rw [hdata] at hcm
    simp only [List.tail_cons, List.mem_append] at hcm
    rcases hcm with (hcm | hcm) | hcm
    · exact hc₁ c hcm
    · exact hc₂ c hcm
    · exact hc₃ c hcm

set_option maxHeartbeats 2000000 in
theorem hslToHex_format (H : Nat) :
    (hslToHex H 65 60).length = 7 ∧
    (hslToHex H 65 60).data.head? = some (Char.ofNat 35) ∧
    ∀ c ∈ (hslToHex H 65 60).data.tail, (hexVal c).isSome = true := by
  have habs1 : ratAbs (2 * ((60 : Rat) / 100) - 1) = 1 / 5 := by
    rw [ratAbs]
    norm_num
  have hfl : ((Rat.floor ((H : Rat) / 60 / 2) : Int) : Rat) ≤ (H : Rat) / 60 / 2 :=
    Rat.le_floor.mp (le_refl _)
  have hfu : (H : Rat) / 60 / 2 < ((Rat.floor ((H : Rat) / 60 / 2) : Int) : Rat) + 1 := by
    by_contra hc
    push_neg at hc
    have h2 : ((Rat.floor ((H : Rat) / 60 / 2) + 1 : Int) : Rat) ≤ (H : Rat) / 60 / 2 := by
      push_cast
      linarith
    have := Rat.le_floor.mpr h2
    omega
  have hm2l : (0 : Rat) ≤ (H : Rat) / 60 - 2 * ((Rat.floor ((H : Rat) / 60 / 2) : Int) : Rat) := by
    linarith
  have hm2u : (H : Rat) / 60 - 2 * ((Rat.floor ((H : Rat) / 60 / 2) : Int) : Rat) < 2 := by
    linarith
  have habsX0 : 0 ≤ ratAbs ((H : Rat) / 60
      - 2 * ((Rat.floor ((H : Rat) / 60 / 2) : Int) : Rat) - 1) := by
    rw [ratAbs]
    split_ifs <;> linarith
  have habsX1 : ratAbs ((H : Rat) / 60
      - 2 * ((Rat.floor ((H : Rat) / 60 / 2) : Int) : Rat) - 1) ≤ 1 := by
    rw [ratAbs]
    split_ifs <;> linarith
  rw [hslToHex]
  simp only [habs1]
  split_ifs with hc1 hc2 hc3 hc4 hc5 <;>
    exact color_format _ _ _
      (jsRound_nonneg (by nlinarith)) (jsRound_le_255 (by nlinarith))
      (jsRound_nonneg (by nlinarith)) (jsRound_le_255 (by nlinarith))
      (jsRound_nonneg (by nlinarith)) (jsRound_le_255 (by nlinarith))

/-- C6: `generateColorFor` is a pure, deterministic function — two
evaluations on the same seed (any string, the empty string included)
give the identical output — and the output is a well-formed hex color:
`#` followed by six hexadecimal digits. -/
theorem C6_generateColorFor (s : String) :
    generateColorFor s = generateColorFor s ∧
    (generateColorFor s).length = 7 ∧
    (generateColorFor s).data.head? = some (Char.ofNat 35) ∧
    ∀ c ∈ (generateColorFor s).data.tail, (hexVal c).isSome = true :=
  ⟨rfl, hslToHex_format (hueOf s)⟩

/-! ## Claim C8: due-date badges -/

/-- JS `String.prototype.split` with a one-character separator:
accumulator-based splitter over the character list. -/
def splitCharAux (sep : Char) : List Char → List Char → List (List Char)
  | [], acc => [acc.reverse]
  | c :: rest, acc =>
    if c = sep then acc.reverse :: splitCharAux sep rest []
    else splitCharAux sep rest (c :: acc)

/-- The split `ymd.split(sep)` for a one-character separator. -/
def jsSplit (sep : Char) (s : String) : List String :=
  (splitCharAux sep s.data []).map String.mk

/-- Integer model of JS `Number(string)`: whitespace is trimmed, the
empty string is 0, an optional sign followed by decimal digits is that
integer, and anything else is NaN (`none`).  Fractional, exponent and
hex forms lie outside the model; the dates this program builds only
ever pass digit strings. -/
def jsNumber (s : String) : Option Int :=
  match (jsTrim s).data with
  | [] => some 0
  | c :: rest =>
    if c.toNat = 45 then
      if !rest.isEmpty && rest.all isDigitChar then some (-(digitsVal rest : Int))
      else none
    else if c.toNat = 43 then
      if !rest.isEmpty && rest.all isDigitChar then some ((digitsVal rest : Int))
      else none
    else if (c :: rest).all isDigitChar then some ((digitsVal (c :: rest) : Int))
    else none

/-- Days since 1970-01-01 of the civil date `(y, m, 1)` shifted by
`d - 1` days, `m` counted 1..12 (Howard Hinnant's `days_from_civil`);
this is the day number of `new Date(y, m - 1, d)` at local midnight,
`d` unconstrained exactly as in JS. -/
def daysFromCivil (y : Int) (m : Nat) (d : Int) : Int :=
  let ys := y - (if m ≤ 2 then 1 else 0)
  let era := ys / 400
  let yoe := (ys - era * 400).toNat
  let mp := if 2 < m then m - 3 else m + 9
  let doy := (153 * mp + 2) / 5
  let doe := yoe * 365 + yoe / 4 - yoe / 100 + doy
  era * 146097 + (doe : Int) - 719468 + (d - 1)

/-- Civil `(year, month 1..12, day)` of a day number (Hinnant's
`civil_from_days`): what `getFullYear`, `getMonth() + 1`, `getDate`
return for a Date at that local day. -/
def civilFromDays (z : Int) : Int × Nat × Nat :=
  let zs := z + 719468
  let era := zs / 146097
  let doe := (zs - era * 146097).toNat
  let yoe := (doe - doe / 1460 + doe / 36524 - doe / 146096) / 365
  let doy := doe - (365 * yoe + yoe / 4 - yoe / 100)
  let mp := (5 * doy + 2) / 153
  let d := doy - (153 * mp + 2) / 5 + 1
  let m := if mp < 10 then mp + 3 else mp - 9
  ((yoe : Int) + era * 400 + (if m ≤ 2 then 1 else 0), m, d)

/-- `new Date(y, mIndex, d)` as a local-midnight day number: the
two-digit-year rule, then month overflow folded into the year
(`MakeDay`), then the civil day count. -/
def jsDateDays (y mIndex d : Int) : Int :=
  daysFromCivil (jsYearAdjust y + mIndex / 12) ((mIndex % 12).toNat + 1) d

/-- JS `(v || 1)` over a number that may be NaN: NaN and 0 both give 1. -/
def jsOr1 : Option Int → Int
  | none => 1
  | some v => if v = 0 then 1 else v

/-- The source's `parseLocalYMD(ymd)` as an optional day number (`none` =
`Date(NaN)`): reject a falsy string, split on `-`, `Number` each part,
default month and day with `|| 1`, and build the local date. -/
def parseLocalYMD (ymd : String) : Option Int :=
  if ymd.data.isEmpty then none
  else
    (jsNumber ((jsSplit (Char.ofNat 45) ymd).headD "")).map (fun y =>
      jsDateDays y (jsOr1 ((jsSplit (Char.ofNat 45) ymd)[1]?.bind jsNumber) - 1)
        (jsOr1 ((jsSplit (Char.ofNat 45) ymd)[2]?.bind jsNumber)))

/-- Short weekday names, index 0 = Sunday (`en-US`, `weekday: short`). -/
def weekdayShort : Nat → String
  | 0 => "Sun" | 1 => "Mon" | 2 => "Tue" | 3 => "Wed"
  | 4 => "Thu" | 5 => "Fri" | _ => "Sat"

/-- Short month names, 1..12 (`en-US`, `month: short`). -/
def monthShort : Nat → String
  | 1 => "Jan" | 2 => "Feb" | 3 => "Mar" | 4 => "Apr"
  | 5 => "May" | 6 => "Jun" | 7 => "Jul" | 8 => "Aug"
  | 9 => "Sep" | 10 => "Oct" | 11 => "Nov" | _ => "Dec"

/-- The source's `formatLongDate` on a valid date: `toLocaleDateString("en-US",
{weekday: short, year: numeric, month: short, day: numeric})`,
i.e. `Mon, Jan 1, 2024`; 1970-01-01 was a Thursday, so the weekday
index is `(z + 4) % 7`. -/
def formatLongDate (z : Int) : String :=
  weekdayShort ((z + 4) % 7).toNat ++ ", " ++ monthShort (civilFromDays z).2.1
    ++ " " ++ natToStr (civilFromDays z).2.2 ++ ", " ++ intToStr (civilFromDays z).1

/-- The badge of `UI.taskHtml`: the class and due-date text computed from
the parsed due date and today's local-midnight day number.  An invalid
date fails every comparison (`NaN`) and formats as `Invalid Date`;
`tomorrow` is `today + 1`; `dueDate < today` and the two
`toDateString()` equalities compare the midnight day numbers. -/
def taskBadge (due : Option Int) (today : Int) : String × String :=
  match due with
  | none => ("", "Invalid Date")
  | some dd =>
    if dd < today then ("overdue", "Overdue - " ++ formatLongDate dd)
    else if dd = today then ("due-soon", "Due Today - " ++ formatLongDate dd)
    else if dd = today + 1 then ("due-soon", "Due Tomorrow - " ++ formatLongDate dd)
    else ("", formatLongDate dd)

theorem dropWhile_all_false {p : Char → Bool} :
    ∀ l : List Char, (∀ c ∈ l, p c = false) → l.dropWhile p = l
  | [], _ => rfl
  | a :: l, h => by
    rw [List.dropWhile_cons, if_neg]
    simp [h a (by simp)]

theorem jsTrim_eq_self {s : String} (h : ∀ c ∈ s.data, isJsSpace c = false) :
    jsTrim s = s := by
  rw [jsTrim]
  rw [dropWhile_all_false s.data h]
  rw [dropWhile_all_false s.data.reverse (by intro c hc; exact h c (List.mem_reverse.mp hc))]
  rw [List.reverse_reverse]

theorem splitCharAux_no_sep (sep : Char) :
    ∀ (a acc : List Char), sep ∉ a → splitCharAux sep a acc = [acc.reverse ++ a]
  | [], acc, _ => by simp [splitCharAux]
  | c :: rest, acc, h => by
    rw [splitCharAux, if_neg (by intro he; exact h (by rw [he]; exact List.mem_cons_self _ _))]
    rw [splitCharAux_no_sep sep rest (c :: acc) (fun hm => h (List.mem_cons_of_mem c hm))]
    simp

theorem splitCharAux_sep_append (sep : Char) :
    ∀ (a acc rest : List Char), sep ∉ a →
      splitCharAux sep (a ++ sep :: rest) acc
        = (acc.reverse ++ a) :: splitCharAux sep rest []
  | [], acc, rest, _ => by simp [splitCharAux]
  | c :: a, acc, rest, h => by
    rw [List.cons_append, splitCharAux,
      if_neg (by intro he; exact h (by rw [he]; exact List.mem_cons_self _ _))]
    rw [splitCharAux_sep_append sep a (c :: acc) rest (fun hm => h (List.mem_cons_of_mem c hm))]
    simp

theorem digit_ne_dash {c : Char} (h : isDigitChar c = true) : c ≠ Char.ofNat 45 := by
  intro he
  subst he
  revert h
  decide

theorem digit_not_space {c : Char} (h : isDigitChar c = true) : isJsSpace c = false := by
  rw [isDigitChar] at h
  simp only [Bool.and_eq_true, decide_eq_true_eq] at h
  rw [isJsSpace]
  simp only [Bool.or_eq_false_iff, decide_eq_false_iff_not]
  omega

theorem padStart2_digits (n : Nat) :
    ∀ c ∈ (padStart2 (natToStr n)).data, isDigitChar c = true := by
  rw [padStart2_data]
  intro c hc
  rcases List.mem_append.mp hc with hc | hc
  · rw [List.eq_of_mem_replicate hc]
    decide
  · exact natToChars_isDigit n c hc

theorem jsNumber_digits {l : List Char} (h : ∀ c ∈ l, isDigitChar c = true)
    (hne : l ≠ []) : jsNumber (String.mk l) = some ((digitsVal l : Int)) := by
  have htrim : jsTrim (String.mk l) = String.mk l :=
    jsTrim_eq_self (by intro c hc; exact digit_not_space (h c hc))
  cases l with
  | nil => exact absurd rfl hne
  | cons c rest =>
    have hc := h c (List.mem_cons_self c rest)
    have hcv : 48 ≤ c.toNat ∧ c.toNat ≤ 57 := by
      rw [isDigitChar] at hc
      simpa using hc
    rw [jsNumber, htrim]
    show (if c.toNat = 45 then _ else if c.toNat = 43 then _
      else if (c :: rest).all isDigitChar then some ((digitsVal (c :: rest) : Int))
      else none) = _
    rw [if_neg (by omega), if_neg (by omega), if_pos (List.all_eq_true.mpr h)]

theorem jsYearAdjust_of_ge {z : Int} (h : 100 ≤ z) : jsYearAdjust z = z := by
  rw [jsYearAdjust, if_neg (by omega)]

theorem parseLocalYMD_isoOf (y : Int) (mIndex day : Nat)
    (hy : 0 ≤ y) (hm : mIndex ≤ 11) (hd1 : 1 ≤ day) (hd2 : day ≤ 99) :
    parseLocalYMD (isoOf y mIndex day)
      = some (daysFromCivil (jsYearAdjust y) (mIndex + 1) day) := by
  have hadj : 100 ≤ jsYearAdjust y := by
    rw [jsYearAdjust]
    split_ifs <;> omega
  have hstr : intToStr (jsYearAdjust y) = natToStr (jsYearAdjust y).toNat := by
    rw [intToStr, if_neg (by omega)]
  have hdash : ("-" : String).data = [Char.ofNat 45] := by decide
  have hdata : (isoOf y mIndex day).data
      = natToChars (jsYearAdjust y).toNat
        ++ Char.ofNat 45 :: ((padStart2 (natToStr (mIndex + 1))).data
        ++ Char.ofNat 45 :: (padStart2 (natToStr day)).data) := by
    simp only [isoOf, hstr, String.data_append, hdash, natToStr, List.append_assoc,
      List.cons_append, List.nil_append]
  have hA : ∀ c ∈ natToChars (jsYearAdjust y).toNat, isDigitChar c = true :=
    natToChars_isDigit _
  have hB := padStart2_digits (mIndex + 1)
  have hC := padStart2_digits day
  have hsplit : jsSplit (Char.ofNat 45) (isoOf y mIndex day)
      = [String.mk (natToChars (jsYearAdjust y).toNat),
         String.mk (padStart2 (natToStr (mIndex + 1))).data,
         String.mk (padStart2 (natToStr day)).data] := by
    rw [jsSplit, hdata]
    rw [splitCharAux_sep_append _ _ _ _ (fun hm45 => digit_ne_dash (hA _ hm45) rfl)]
    rw [splitCharAux_sep_append _ _ _ _ (fun hm45 => digit_ne_dash (hB _ hm45) rfl)]
    rw [splitCharAux_no_sep _ _ _ (fun hm45 => digit_ne_dash (hC _ hm45) rfl)]
    simp
  have hyv : jsNumber (String.mk (natToChars (jsYearAdjust y).toNat))
      = some (jsYearAdjust y) := by
    rw [jsNumber_digits hA (natToChars_ne_nil _), digitsVal_natToChars]
    congr 1
    omega
  have hmne : (padStart2 (natToStr (mIndex + 1))).data ≠ [] := by
    rw [padStart2_data]
    intro hz
    exact natToChars_ne_nil (mIndex + 1) (List.append_eq_nil.mp hz).2
  have hdne : (padStart2 (natToStr day)).data ≠ [] := by
    rw [padStart2_data]
    intro hz
    exact natToChars_ne_nil day (List.append_eq_nil.mp hz).2
  have hmv : jsNumber (String.mk (padStart2 (natToStr (mIndex + 1))).data)
      = some ((mIndex : Int) + 1) := by
    rw [jsNumber_digits hB hmne, digitsVal_padStart2]
    norm_cast
  have hdv : jsNumber (String.mk (padStart2 (natToStr day)).data)
      = some ((day : Int)) := by
    rw [jsNumber_digits hC hdne, digitsVal_padStart2]
  have notEmpty : (isoOf y mIndex day).data.isEmpty = false := by
    rw [hdata]
    cases hAe : natToChars (jsYearAdjust y).toNat with
    | nil => exact absurd hAe (natToChars_ne_nil _)
    | cons a l => rw [List.cons_append]; rfl
  rw [parseLocalYMD, if_neg (by rw [notEmpty]; simp)]
  rw [hsplit]
  simp only [List.headD_cons, List.getElem?_cons_succ, List.getElem?_cons_zero,
    Option.some_bind, hyv, hmv, hdv, jsOr1]
  rw [show ∀ x : Int, Option.map (fun yy =>
      jsDateDays yy ((if (mIndex : Int) + 1 = 0 then 1 else (mIndex : Int) + 1) - 1)
        (if (day : Int) = 0 then 1 else (day : Int))) (some x)
      = some (jsDateDays x ((if (mIndex : Int) + 1 = 0 then 1 else (mIndex : Int) + 1) - 1)
        (if (day : Int) = 0 then 1 else (day : Int))) from fun x => rfl]
  rw [if_neg (by omega), if_neg (by omega)]
  rw [jsDateDays, jsYearAdjust_of_ge hadj]
  have h2 : ((mIndex : Int) + 1 - 1) = (mIndex : Int) := by ring
  rw [h2]
  have h3 : (mIndex : Int) / 12 = 0 := by omega
  have h4 : ((mIndex : Int) % 12).toNat = mIndex := by omega
  rw [h3, h4, add_zero]

/-- C8: the board badge compares the parsed zone-less due date with
today and tomorrow by local calendar day number only: strictly before
today gives class `overdue` and an `Overdue - ` label, today gives
`due-soon` and `Due Today - `, tomorrow `due-soon` and
`Due Tomorrow - `, anything later the plain formatted date (each label
carries the formatted date after the prefix); parsing the canonical
`YYYY-MM-DD` string of a civil date yields exactly that date's day
number; and the spec's scenario holds: due `2024-01-01` seen on
2024-01-02 renders class `overdue` with label
`Overdue - Mon, Jan 1, 2024`. -/
theorem C8_badge (y : Int) (mIndex day : Nat) (t : Int)
    (hy : 0 ≤ y) (hm : mIndex ≤ 11) (hd1 : 1 ≤ day) (hd2 : day ≤ 99) :
    parseLocalYMD (isoOf y mIndex day)
      = some (daysFromCivil (jsYearAdjust y) (mIndex + 1) day) ∧
    (daysFromCivil (jsYearAdjust y) (mIndex + 1) day < t →
      taskBadge (parseLocalYMD (isoOf y mIndex day)) t
        = ("overdue",
           "Overdue - " ++ formatLongDate (daysFromCivil (jsYearAdjust y) (mIndex + 1) day))) ∧
    (daysFromCivil (jsYearAdjust y) (mIndex + 1) day = t →
      taskBadge (parseLocalYMD (isoOf y mIndex day)) t
        = ("due-soon",
           "Due Today - " ++ formatLongDate (daysFromCivil (jsYearAdjust y) (mIndex + 1) day))) ∧
    (daysFromCivil (jsYearAdjust y) (mIndex + 1) day = t + 1 →
      taskBadge (parseLocalYMD (isoOf y mIndex day)) t
        = ("due-soon",
           "Due Tomorrow - " ++ formatLongDate (daysFromCivil (jsYearAdjust y) (mIndex + 1) day))) ∧
    (t + 1 < daysFromCivil (jsYearAdjust y) (mIndex + 1) day →
      taskBadge (parseLocalYMD (isoOf y mIndex day)) t
        = ("", formatLongDate (daysFromCivil (jsYearAdjust y) (mIndex + 1) day))) ∧
    taskBadge (parseLocalYMD "2024-01-01") (daysFromCivil 2024 1 2)
      = ("overdue", "Overdue - Mon, Jan 1, 2024") := by
  have hp := parseLocalYMD_isoOf y mIndex day hy hm hd1 hd2
  refine ⟨hp, ?_, ?_, ?_, ?_, by decide⟩
  · intro h
    rw [hp]
    simp only [taskBadge]
    rw [if_pos h]
  · intro h
    rw [hp]
    simp only [taskBadge]
    rw [if_neg (by omega), if_pos h]
  · intro h
    rw [hp]
    simp only [taskBadge]
    rw [if_neg (by omega), if_neg (by omega), if_pos h]
  · intro h
    rw [hp]
    simp only [taskBadge]
    rw [if_neg (by omega), if_neg (by omega), if_neg (by omega)]

theorem C8_badge_witness :
    parseLocalYMD (isoOf 2024 0 1) = some (daysFromCivil (jsYearAdjust 2024) (0 + 1) 1) ∧
    taskBadge (parseLocalYMD "2024-01-01") (daysFromCivil 2024 1 2)
      = ("overdue", "Overdue - Mon, Jan 1, 2024") :=
  ⟨(C8_badge 2024 0 1 0 (by decide) (by decide) (by decide) (by decide)).1,
   (C8_badge 2024 0 1 0 (by decide) (by decide) (by decide) (by decide)).2.2.2.2.2⟩



/-! ## Claims C9 and C10: the chat send handler

`handleSend` is modelled up to the point the outbound request is
issued: the returned request list carries what `sendToOpenAI` would be
called with, and both claims assert it is empty.  The awaited response
handling lies outside these claims. -/

/-- One chat message as kept in `Chat.messages`. -/
structure ChatMsg where
  role : String
  content : String
  ts : Nat
deriving Repr, DecidableEq

/-- The state `handleSend` can read or write: the in-memory history,
the history / API-key / model storage cells, and every other storage
key (carried opaquely for the frame property). -/
structure ChatState where
  messages : List ChatMsg
  historyCell : Option String
  apiKeyCell : Option String
  modelCell : Option String
  otherCells : List (String × Option String)
deriving Repr, DecidableEq

/-- One outbound completion request: bearer key, model id, and the
role/content pairs posted in the body. -/
structure ChatRequest where
  apiKey : String
  model : String
  payload : List (String × String)
deriving Repr, DecidableEq

/-- JSON encoding of a chat message (`JSON.stringify` of
`{ role, content, ts }`). -/
def msgToJ (m : ChatMsg) : JValue :=
  JValue.jobj [("role", JValue.jstr m.role), ("content", JValue.jstr m.content),
    ("ts", JValue.jnum (m.ts : Int))]

/-- Truthiness of a `localStorage.getItem` result: `null` and the
empty string are falsy. -/
def cellTruthy : Option String → Bool
  | none => false
  | some s => !s.data.isEmpty

/-- JS `localStorage.getItem(k) || d`. -/
def cellOrDefault (cell : Option String) (d : String) : String :=
  match cell with
  | none => d
  | some s => if s.data.isEmpty then d else s

/-- `Chat.append(role, content)`: push `{ role, content, ts: Date.now() }`
onto the in-memory history and persist it (`Chat.save`). -/
def chatAppend (st : ChatState) (role content : String) (now : Nat) : ChatState :=
  let msgs := st.messages ++ [⟨role, content, now⟩]
  { st with messages := msgs, historyCell := storageSave (JValue.jarr (msgs.map msgToJ)) }

/-- `handleSend()` up to the outbound call: trim the input and stop on
an empty result; append and persist the user message; with no truthy
API key append and persist the canned assistant prompt and stop with
no request; otherwise issue the one request carrying the whole stored
history as role/content pairs. -/
def handleSend (st : ChatState) (input : String) (now : Nat) :
    ChatState × List ChatRequest :=
  let text := jsTrim input
  if text.data.isEmpty then (st, [])
  else
    let st1 := chatAppend st "user" text now
    if cellTruthy st1.apiKeyCell then
      (st1, [⟨st1.apiKeyCell.getD "", cellOrDefault st1.modelCell "gpt-4o-mini",
             st1.messages.map (fun m => (m.role, m.content))⟩])
    else
      (chatAppend st1 "assistant" "Please set your API key in the API dialog." now, [])

/-- C9: a send with non-empty trimmed input and no API key configured
(absent or empty key cell) appends the user message and then exactly
one assistant message with the configuration prompt text, persists
that history, issues no network request, and touches no other storage
key. -/
theorem C9_no_key_send (st : ChatState) (input : String) (now : Nat)
    (hne : (jsTrim input).data ≠ []) (hkey : cellTruthy st.apiKeyCell = false) :
    (handleSend st input now).2 = [] ∧
    (handleSend st input now).1.messages = st.messages
      ++ [⟨"user", jsTrim input, now⟩,
          ⟨"assistant", "Please set your API key in the API dialog.", now⟩] ∧
    (handleSend st input now).1.historyCell
      = storageSave (JValue.jarr (((handleSend st input now).1.messages).map msgToJ)) ∧
    (handleSend st input now).1.apiKeyCell = st.apiKeyCell ∧
    (handleSend st input now).1.modelCell = st.modelCell ∧
    (handleSend st input now).1.otherCells = st.otherCells := by
  have hie : (jsTrim input).data.isEmpty = false := by
    cases hd : (jsTrim input).data with
    | nil => exact absurd hd hne
    | cons a l => rfl
  have hfull : handleSend st input now
      = (chatAppend (chatAppend st "user" (jsTrim input) now) "assistant"
          "Please set your API key in the API dialog." now, []) := by
    rw [handleSend]
    simp only [hie, Bool.false_eq_true, if_false, chatAppend, hkey]
  rw [hfull]
  simp [chatAppend, List.append_assoc]

/-- C9 witness: from the empty store, sending `hi` with no key yields
the user message then the canned assistant prompt and no request. -/
theorem C9_no_key_send_witness :
    (handleSend ⟨[], none, none, none, []⟩ "hi" 0).2 = [] ∧
    (handleSend ⟨[], none, none, none, []⟩ "hi" 0).1.messages = []
      ++ [⟨"user", jsTrim "hi", 0⟩,
          ⟨"assistant", "Please set your API key in the API dialog.", 0⟩] ∧
    (handleSend ⟨[], none, none, none, []⟩ "hi" 0).1.historyCell
      = storageSave (JValue.jarr
          (((handleSend ⟨[], none, none, none, []⟩ "hi" 0).1.messages).map msgToJ)) ∧
    (handleSend ⟨[], none, none, none, []⟩ "hi" 0).1.apiKeyCell = none ∧
    (handleSend ⟨[], none, none, none, []⟩ "hi" 0).1.modelCell = none ∧
    (handleSend ⟨[], none, none, none, []⟩ "hi" 0).1.otherCells = [] :=
  C9_no_key_send ⟨[], none, none, none, []⟩ "hi" 0 (by decide) (by decide)

/-- C10: when the input trims to nothing the handler is a no-op on the
whole state - in-memory history, persisted history, every other
storage cell - and issues no network request. -/
theorem C10_empty_send_noop (st : ChatState) (input : String) (now : Nat)
    (h : (jsTrim input).data = []) :
    handleSend st input now = (st, []) := by
  rw [handleSend]
  simp only [h, List.isEmpty_nil, if_true]

/-- C10 witness: a whitespace-only input leaves a concrete populated
state exactly as it was. -/
theorem C10_empty_send_noop_witness :
    handleSend ⟨[⟨"user", "a", 5⟩], some "x", some "k", none, [("theme", some "dark")]⟩
        "  " 7
      = (⟨[⟨"user", "a", 5⟩], some "x", some "k", none, [("theme", some "dark")]⟩, []) :=
  C10_empty_send_noop _ "  " 7 (by decide)

end StudyTracker
